import Mathlib

/-!
# heroku-cloudwatch-drain: the request-ingestion pipeline of `main.go`

A shallow embedding of `main.go`.

* Go strings and byte slices are lists of bytes (`List Byte`, a byte being a
  natural number below 256; nothing below does arithmetic on bytes, they are
  only compared).  HTTP methods and the constant response bodies are ASCII
  constants and are kept as `String`.
* Mutable state is passed explicitly.  A logger held by the registry is
  represented by its state (the entries logged so far); the registry slot of a
  destination is the identity of its logger, since `App.logger` stores every
  logger it constructs under exactly one name and nothing else stores one.
* A Go run-time panic (slice bounds, nil dereference) is an explicit result.
* `cwlogger.New` talks to an external service; whether the construction it
  would perform succeeds is an input of every step (`outcome`), and every
  invocation is recorded in the ghost field `App.newCalls`.
* `main` registers the app on the mux pattern `/`, so the path of a request
  that reaches `ServeHTTP` starts with a slash; the statements about the
  handler are made for such paths (on the empty path `r.URL.Path[1:]` panics).
-/

namespace Drain

/-- One byte of a Go string or byte slice. -/
abbrev Byte := Nat

/-- The line-feed byte, the delimiter given to `ReadBytes`. -/
def LF : Byte := 10

/-- The escape byte `\x1b` that starts `ansiRegexp`. -/
def ESC : Byte := 27

/-- The byte of the letter `m` that ends `ansiRegexp`. -/
def LetterM : Byte := 109

/-- The slash byte that starts a request path. -/
def Slash : Byte := 47

/-- Go error values, as far as `main.go` tells them apart: `io.EOF` and the rest. -/
inductive error where
  | EOF
  | other (msg : String)
  deriving DecidableEq, Repr

/-- Modelled from the spec: the type `logparser.LogEntry` (the package
`logparser` is missing from the sources), a timestamp and a message. -/
structure LogEntry where
  Time : Nat
  Message : List Byte
  deriving DecidableEq, Repr

/-- Modelled from the spec: the type `logparser.ParseFunc`, a pure function
from one raw line to an entry or an error, never both. -/
abbrev ParseFunc := List Byte → Except error LogEntry

/-- The `logger` interface value held by the registry and used by
`processMessages`: the nil `*cwlogger.Logger` that a failed construction
leaves behind, or a live logger, given by the entries logged to it so far. -/
inductive logger where
  | nilPtr
  | mem (entries : List (Nat × List Byte))
  deriving DecidableEq, Repr

/-- The method `Log(t, s)`: a live logger appends the entry; calling it through
the nil pointer dereferences nil, which is a run-time panic (`none`). -/
def logger.Log : logger → Nat → List Byte → Option logger
  | .nilPtr, _, _ => none
  | .mem es, t, s => some (.mem (es ++ [(t, s)]))

/-- The type `App`; `loggers` is the map (an association list kept with one
pair per key by `store`), `mu` has no counterpart since every operation here is
one atomic step.  `newCalls` is ghost state: the names `cwlogger.New` has been
invoked with, in call order. -/
structure App where
  retention : Int
  stripAnsiCodes : Bool
  user : List Byte
  pass : List Byte
  parse : ParseFunc
  loggers : List (List Byte × logger)
  newCalls : List (List Byte)

/-- The map read `app.loggers[appName]` with its `ok` flag. -/
def lookup (k : List Byte) : List (List Byte × logger) → Option logger
  | [] => none
  | (k', v) :: m => if k' = k then some v else lookup k m

/-- The map write `app.loggers[appName] = l`: replaces the value of an existing
key, adds the key otherwise. -/
def store (k : List Byte) (v : logger) : List (List Byte × logger) → List (List Byte × logger)
  | [] => [(k, v)]
  | (k', v') :: m => if k' = k then (k', v) :: m else (k', v') :: store k v m

/-- The app as `main` builds it: the configuration and an empty registry. -/
def App.new (retention : Int) (stripAnsiCodes : Bool) (user pass : List Byte)
    (parse : ParseFunc) : App :=
  { retention := retention, stripAnsiCodes := stripAnsiCodes, user := user, pass := pass,
    parse := parse, loggers := [], newCalls := [] }

/-! ## stripAnsi

`ansiRegexp` is `\x1b[^m]*m`.  The escape byte and `m` are ASCII, so neither is
part of a multi-byte UTF-8 sequence, and `[^m]` accepts every other rune, the
line-feed and the replacement rune of an invalid byte included; matching can
therefore be followed byte by byte.  A match starts at an escape byte and ends
at the first `m` after it (`[^m]*` cannot run over an `m`), so the leftmost
match that `ReplaceAllLiteralString` looks for at each position is found by
trying the positions in order. -/

/-- What is left of `s` after `[^m]*m` has matched at its head: the bytes after
the first `m`, when there is one. -/
def afterM : List Byte → Option (List Byte)
  | [] => none
  | c :: s => if c = LetterM then some s else afterM s

/-- A match of `ansiRegexp` (`\x1b[^m]*m`) anchored at the head of the input:
the remainder after the match.  `[^m]` matches every byte but `m` (line-feed
included), so the match, when there is one, ends at the first `m`. -/
def ansiMatch : List Byte → Option (List Byte)
  | [] => none
  | c :: s => if c = ESC then afterM s else none

/-- The scan of `ReplaceAllLiteralString(s, "")`: at each position the leftmost
match is dropped and the scan resumes after it, a byte where no match starts is
kept.  The first argument bounds the number of steps. -/
def replaceAllAnsi : Nat → List Byte → List Byte
  | 0, s => s
  | _ + 1, [] => []
  | n + 1, c :: s =>
    match ansiMatch (c :: s) with
    | some rest => replaceAllAnsi n rest
    | none => c :: replaceAllAnsi n s

/-- The function `stripAnsi`. -/
def stripAnsi (s : List Byte) : List Byte :=
  replaceAllAnsi s.length s

/-! ## processMessages -/

/-- The request body as an `io.Reader`: the bytes it delivers and how it ends,
`none` for `io.EOF`, `some msg` for a read failure after the bytes. -/
structure Reader where
  data : List Byte
  fail : Option String
  deriving DecidableEq, Repr

/-- The input up to and including the first delimiter, and the rest. -/
def splitDelim (delim : Byte) : List Byte → Option (List Byte × List Byte)
  | [] => none
  | c :: s =>
    if c = delim then some ([c], s)
    else match splitDelim delim s with
      | some (l, rest) => some (c :: l, rest)
      | none => none

/-- The call `buf.ReadBytes(delim)`: the bytes up to and including the
delimiter; without a delimiter, all the remaining bytes together with the error
that ended the stream. -/
def Reader.ReadBytes (r : Reader) (delim : Byte) : List Byte × Option error × Reader :=
  match splitDelim delim r.data with
  | some (line, rest) => (line, none, { r with data := rest })
  | none =>
    (r.data,
     some (match r.fail with
       | none => error.EOF
       | some msg => error.other msg),
     { r with data := [] })

/-- The slice `m[:len(m)-1]`; out of range (`none`) on the empty string. -/
def sliceLast (m : List Byte) : Option (List Byte) :=
  if m = [] then none else some m.dropLast

/-- The step `if app.stripAnsiCodes { m = stripAnsi(m) }` of `processMessages`. -/
def App.stripped (app : App) (m : List Byte) : List Byte :=
  if app.stripAnsiCodes then stripAnsi m else m

/-- What a call of `processMessages` comes to. -/
inductive Result where
  | nil
  | scanFailed (e : error)
  | parseFailed (b : List Byte) (e : error)
  | panicked
  | outOfSteps
  deriving DecidableEq, Repr

/-- The `for` loop of `processMessages`, with the variable `eof` and the
buffered reader as loop state; it returns the result and the logger after the
`Log` calls made.  The first argument bounds the number of iterations. -/
def App.processLoop (app : App) : Nat → Bool → Reader → logger → Result × logger
  | 0, _, _, l => (.outOfSteps, l)
  | n + 1, eof, buf, l =>
    match buf.ReadBytes LF with
    | (_, some (.other msg), _) => (.scanFailed (.other msg), l)
    | (b, err, buf') =>
      let eof := if err = some .EOF then true else eof
      if eof && b.length == 0 then (.nil, l)
      else
        match app.parse b with
        | .error e => (.parseFailed b e, l)
        | .ok entry =>
          let m := entry.Message
          let m := app.stripped m
          match (if !eof then sliceLast m else some m) with
          | none => (.panicked, l)
          | some m =>
            match l.Log entry.Time m with
            | none => (.panicked, l)
            | some l' => if eof then (.nil, l') else app.processLoop n eof buf' l'

/-- The method `processMessages`: every iteration but the last consumes a
line-feed, so `len + 1` iterations are enough (`processLoop_steps`). -/
def App.processMessages (app : App) (r : Reader) (l : logger) : Result × logger :=
  app.processLoop (r.data.length + 1) false r l

/-- The loop of `processMessages` once more, recording the raw buffers `b` that
are handed to `app.parse`, in call order; the result and the logger are those
of `processLoop` (`processLoopBuffers_fst`). -/
def App.processLoopBuffers (app : App) :
    Nat → Bool → Reader → logger → (Result × logger) × List (List Byte)
  | 0, _, _, l => ((.outOfSteps, l), [])
  | n + 1, eof, buf, l =>
    match buf.ReadBytes LF with
    | (_, some (.other msg), _) => ((.scanFailed (.other msg), l), [])
    | (b, err, buf') =>
      let eof := if err = some .EOF then true else eof
      if eof && b.length == 0 then ((.nil, l), [])
      else
        match app.parse b with
        | .error e => ((.parseFailed b e, l), [b])
        | .ok entry =>
          let m := entry.Message
          let m := app.stripped m
          match (if !eof then sliceLast m else some m) with
          | none => ((.panicked, l), [b])
          | some m =>
            match l.Log entry.Time m with
            | none => ((.panicked, l), [b])
            | some l' =>
              if eof then ((.nil, l'), [b])
              else
                ((app.processLoopBuffers n eof buf' l').1,
                  b :: (app.processLoopBuffers n eof buf' l').2)

/-- The buffers handed to `app.parse` during `processMessages`. -/
def App.parsedBuffers (app : App) (r : Reader) (l : logger) : List (List Byte) :=
  (app.processLoopBuffers (r.data.length + 1) false r l).2

/-! ## the registry and the handler -/

/-- The call `cwlogger.New(...)`: `outcome` is the error the external service
answers with, `none` when the construction succeeds. -/
def cwloggerNew (outcome : Option String) : logger × Option error :=
  match outcome with
  | none => (.mem [], none)
  | some msg => (.nilPtr, some (.other msg))

/-- The method `App.logger`, one atomic step under `mu`. -/
def App.logger (app : App) (appName : List Byte) (outcome : Option String) :
    (logger × Option error) × App :=
  match lookup appName app.loggers with
  | some l => ((l, none), app)
  | none =>
    match cwloggerNew outcome with
    | (l, err) =>
      ((l, err), { app with loggers := store appName l app.loggers,
                            newCalls := app.newCalls ++ [appName] })

/-- An HTTP request as `ServeHTTP` reads it: method, URL path, the credentials
of a well-formed Basic `Authorization` header (if any), and the body. -/
structure Request where
  Method : String
  Path : List Byte
  auth : Option (List Byte × List Byte)
  Body : Reader

/-- The call `r.BasicAuth()`: empty strings and `false` without credentials. -/
def Request.BasicAuth (r : Request) : List Byte × List Byte × Bool :=
  match r.auth with
  | some (u, p) => (u, p, true)
  | none => ([], [], false)

/-- What has been written to the `ResponseWriter`. -/
structure Response where
  status : Nat
  body : String
  deriving DecidableEq, Repr

/-- The method `ServeHTTP`: the response written (`none` when the handler
panics before writing one) and the app afterwards.  The logger that
`processMessages` has logged to is the one in the registry, so its new state is
written back to its slot. -/
def App.ServeHTTP (app : App) (r : Request) (outcome : Option String) :
    Option Response × App :=
  match r.Path with
  | [] => (none, app)
  | _ :: appName =>
    if r.Method = "GET" then
      if appName = [] then (some ⟨200, "OK"⟩, app)
      else (some ⟨404, "Not found"⟩, app)
    else if r.Method ≠ "POST" then
      (some ⟨400, "The only accepted request method is POST"⟩, app)
    else if appName = [] then
      (some ⟨400, "Request path must specify the log group name"⟩, app)
    else
      match r.BasicAuth with
      | (user, pass, _) =>
        if user ≠ app.user ∨ pass ≠ app.pass then (some ⟨403, ""⟩, app)
        else
          match app.logger appName outcome with
          | ((_, some _), app1) => (some ⟨500, ""⟩, app1)
          | ((l, none), app1) =>
            match app1.processMessages r.Body l with
            | (res, l') =>
              let app2 := { app1 with loggers := store appName l' app1.loggers }
              match res with
              | .nil => (some ⟨202, ""⟩, app2)
              | .scanFailed _ => (some ⟨500, ""⟩, app2)
              | .parseFailed _ _ => (some ⟨500, ""⟩, app2)
              | .panicked => (none, app2)
              | .outOfSteps => (none, app2)

/-- A run of `App.logger` calls, each with the outcome its construction would
have. -/
def runLogger (app : App) : List (List Byte × Option String) → App
  | [] => app
  | (name, outcome) :: calls => runLogger (app.logger name outcome).2 calls

/-! ## Concrete inputs used in the examples -/

/-- A parse function that returns the whole raw line as the message and the
length of the line as the time. -/
def parseWhole : ParseFunc := fun b => .ok ⟨b.length, b⟩

/-- A parse function that rejects a line starting with `!` and otherwise
returns the line without its terminator as the message, the length of the line
as the time. -/
def parseChomp : ParseFunc := fun b =>
  if b.head? = some 33 then .error (.other "malformed line")
  else .ok ⟨b.length, if b.getLast? = some LF then b.dropLast else b⟩

/-- An app without configured credentials whose registry holds live loggers
for the destinations `a` and `a/b`. -/
def appTwoLoggers : App :=
  { App.new 0 false [] [] parseWhole with
    loggers := [([97], .mem []), ([97, 47, 98], .mem [])],
    newCalls := [[97], [97, 47, 98]] }

/-- A POST request whose body ends with `io.EOF`. -/
def postRequest (path : List Byte) (auth : Option (List Byte × List Byte))
    (body : List Byte) : Request :=
  { Method := "POST", Path := path, auth := auth, Body := { data := body, fail := none } }

/-! ## Lemmas on `stripAnsi` -/

theorem afterM_length : ∀ (s r : List Byte), afterM s = some r → r.length < s.length
  | [], _, h => by simp [afterM] at h
  | c :: s, r, h => by
    unfold afterM at h
    split at h
    · cases h
      simp
    · have := afterM_length s r h
      simp only [List.length_cons]
      omega

theorem ansiMatch_length {s r : List Byte} (h : ansiMatch s = some r) : r.length < s.length := by
  cases s with
  | nil => simp [ansiMatch] at h
  | cons c s =>
    by_cases hc : c = ESC
    · simp only [ansiMatch, hc, if_true] at h
      have := afterM_length s r h
      simp only [List.length_cons]
      omega
    · simp [ansiMatch, hc] at h

theorem afterM_mem : ∀ (s r : List Byte), afterM s = some r → ∀ x ∈ r, x ∈ s
  | [], _, h => by simp [afterM] at h
  | c :: s, r, h => by
    unfold afterM at h
    intro x hx
    split at h
    · cases h
      exact List.mem_cons_of_mem _ hx
    · exact List.mem_cons_of_mem _ (afterM_mem s r h x hx)

theorem afterM_eq_none : ∀ (s : List Byte), afterM s = none ↔ LetterM ∉ s
  | [] => by simp [afterM]
  | c :: s => by
    unfold afterM
    by_cases hc : c = LetterM
    · simp [hc]
    · have hc' : ¬ LetterM = c := fun h => hc h.symm
      simp [hc, hc', afterM_eq_none s]

theorem afterM_append : ∀ (mid post : List Byte), LetterM ∉ mid →
    afterM (mid ++ LetterM :: post) = some post
  | [], post, _ => by simp [afterM]
  | c :: mid, post, h => by
    have hc : ¬ c = LetterM := fun e => h (by simp [e])
    have hm : LetterM ∉ mid := fun e => h (List.mem_cons_of_mem _ e)
    simp [afterM, hc, afterM_append mid post hm]

theorem replaceAllAnsi_steps : ∀ (n m : Nat) (s : List Byte), s.length ≤ n → s.length ≤ m →
    replaceAllAnsi n s = replaceAllAnsi m s
  | 0, m, s, hn, _ => by
    have : s = [] := List.length_eq_zero.mp (by omega)
    subst this
    cases m <;> simp [replaceAllAnsi]
  | n + 1, 0, s, _, hm => by
    have : s = [] := List.length_eq_zero.mp (by omega)
    subst this
    simp [replaceAllAnsi]
  | n + 1, m + 1, [], _, _ => by simp [replaceAllAnsi]
  | n + 1, m + 1, c :: s, hn, hm => by
    simp only [List.length_cons] at hn hm
    unfold replaceAllAnsi
    cases h : ansiMatch (c :: s) with
    | none =>
      simp only
      rw [replaceAllAnsi_steps n m s (by omega) (by omega)]
    | some rest =>
      simp only
      have hl := ansiMatch_length h
      simp only [List.length_cons] at hl
      exact replaceAllAnsi_steps n m rest (by omega) (by omega)

theorem stripAnsi_nil : stripAnsi [] = [] := rfl

theorem stripAnsi_cons_match {c : Byte} {s rest : List Byte}
    (h : ansiMatch (c :: s) = some rest) : stripAnsi (c :: s) = stripAnsi rest := by
  have hl := ansiMatch_length h
  simp only [List.length_cons] at hl
  unfold stripAnsi
  simp only [List.length_cons, replaceAllAnsi, h]
  exact replaceAllAnsi_steps _ _ rest (by omega) (le_refl _)

theorem stripAnsi_cons_keep {c : Byte} {s : List Byte}
    (h : ansiMatch (c :: s) = none) : stripAnsi (c :: s) = c :: stripAnsi s := by
  unfold stripAnsi
  simp only [List.length_cons, replaceAllAnsi, h]

theorem stripAnsi_mem_aux : ∀ (n : Nat) (s : List Byte), s.length ≤ n →
    ∀ x ∈ stripAnsi s, x ∈ s
  | _, [], _ => by simp [stripAnsi_nil]
  | 0, _ :: _, h => by simp at h
  | n + 1, c :: s, h => by
    simp only [List.length_cons] at h
    intro x hx
    cases hm : ansiMatch (c :: s) with
    | none =>
      rw [stripAnsi_cons_keep hm] at hx
      rcases List.mem_cons.mp hx with rfl | hx
      · exact List.mem_cons_self _ _
      · exact List.mem_cons_of_mem _ (stripAnsi_mem_aux n s (by omega) x hx)
    | some rest =>
      rw [stripAnsi_cons_match hm] at hx
      have hl := ansiMatch_length hm
      simp only [List.length_cons] at hl
      have hr := stripAnsi_mem_aux n rest (by omega) x hx
      by_cases hc : c = ESC
      · simp only [ansiMatch, hc, if_true] at hm
        exact List.mem_cons_of_mem _ (afterM_mem s rest hm x hr)
      · simp [ansiMatch, hc] at hm

/-- Every byte of `stripAnsi s` is a byte of `s`. -/
theorem stripAnsi_mem (s : List Byte) : ∀ x ∈ stripAnsi s, x ∈ s :=
  stripAnsi_mem_aux s.length s (le_refl _)

theorem stripAnsi_clean_aux : ∀ (n : Nat) (s : List Byte), s.length ≤ n →
    ∀ pre suf : List Byte, stripAnsi s = pre ++ suf → ansiMatch suf = none
  | _, [], _ => by
    intro pre suf h
    rw [stripAnsi_nil] at h
    have : suf = [] := (List.append_eq_nil.mp h.symm).2
    subst this
    rfl
  | 0, _ :: _, h => by simp at h
  | n + 1, c :: s, h => by
    simp only [List.length_cons] at h
    intro pre suf hs
    cases hm : ansiMatch (c :: s) with
    | some rest =>
      rw [stripAnsi_cons_match hm] at hs
      have hl := ansiMatch_length hm
      simp only [List.length_cons] at hl
      exact stripAnsi_clean_aux n rest (by omega) pre suf hs
    | none =>
      rw [stripAnsi_cons_keep hm] at hs
      cases pre with
      | cons p pre =>
        simp only [List.cons_append, List.cons.injEq] at hs
        exact stripAnsi_clean_aux n s (by omega) pre suf hs.2
      | nil =>
        simp only [List.nil_append] at hs
        subst hs
        by_cases hc : c = ESC
        · simp only [ansiMatch, hc, if_true] at hm ⊢
          rw [afterM_eq_none] at hm ⊢
          exact fun hx => hm (stripAnsi_mem s _ hx)
        · simp [ansiMatch, hc]

/-- No match of `ansiRegexp` starts anywhere in `stripAnsi s`. -/
theorem stripAnsi_clean (s pre suf : List Byte) (h : stripAnsi s = pre ++ suf) :
    ansiMatch suf = none :=
  stripAnsi_clean_aux s.length s (le_refl _) pre suf h

/-- A string in which no match starts is left as it is. -/
theorem stripAnsi_of_clean : ∀ (t : List Byte),
    (∀ pre suf : List Byte, t = pre ++ suf → ansiMatch suf = none) → stripAnsi t = t
  | [], _ => rfl
  | c :: t, h => by
    rw [stripAnsi_cons_keep (h [] (c :: t) rfl)]
    rw [stripAnsi_of_clean t (fun pre suf e => h (c :: pre) suf (by simp [e]))]

/-- C10: for every string `s`, `stripAnsi s` has no substring made of the escape
byte, a run of bytes other than `m`, and `m`; a second pass therefore finds
nothing to match and returns `stripAnsi s` unchanged. -/
theorem stripAnsi_leaves_no_escape_sequence (s : List Byte) :
    (¬ ∃ pre mid post : List Byte,
        LetterM ∉ mid ∧ stripAnsi s = pre ++ (ESC :: mid ++ [LetterM]) ++ post) ∧
    (∀ pre suf : List Byte, stripAnsi s = pre ++ suf → ansiMatch suf = none) ∧
    stripAnsi (stripAnsi s) = stripAnsi s := by
  refine ⟨?_, stripAnsi_clean s, stripAnsi_of_clean _ (stripAnsi_clean s)⟩
  rintro ⟨pre, mid, post, hmid, hs⟩
  have h := stripAnsi_clean s pre ((ESC :: mid ++ [LetterM]) ++ post) (by simpa using hs)
  have h2 : ansiMatch ((ESC :: mid ++ [LetterM]) ++ post) = some post := by
    simp [ansiMatch, afterM_append mid post hmid]
  rw [h2] at h
  cases h

theorem afterM_append_right : ∀ (s r t : List Byte), afterM s = some r →
    afterM (s ++ t) = some (r ++ t)
  | [], _, _, h => by simp [afterM] at h
  | c :: s, r, t, h => by
    by_cases hc : c = LetterM
    · simp only [afterM, hc, if_true, Option.some.injEq] at h
      simp [afterM, hc, h]
    · simp only [afterM, hc, if_false] at h
      simp [afterM, hc, afterM_append_right s r t h]

theorem stripAnsi_snoc_aux (c : Byte) (hc : c ≠ LetterM) : ∀ (n : Nat) (m : List Byte),
    m.length ≤ n → stripAnsi (m ++ [c]) = stripAnsi m ++ [c]
  | _, [], _ => by
    have h : ansiMatch [c] = none := by
      by_cases he : c = ESC <;> simp [ansiMatch, afterM, he]
    simp [stripAnsi_cons_keep h, stripAnsi_nil]
  | 0, _ :: _, h => by simp at h
  | n + 1, a :: m, h => by
    simp only [List.length_cons] at h
    cases hm : ansiMatch (a :: m) with
    | some rest =>
      have hl := ansiMatch_length hm
      simp only [List.length_cons] at hl
      have hm2 : ansiMatch (a :: (m ++ [c])) = some (rest ++ [c]) := by
        by_cases ha : a = ESC
        · simp only [ansiMatch, ha, if_true] at hm ⊢
          exact afterM_append_right m rest [c] hm
        · simp [ansiMatch, ha] at hm
      rw [List.cons_append, stripAnsi_cons_match hm2, stripAnsi_cons_match hm]
      exact stripAnsi_snoc_aux c hc n rest (by omega)
    | none =>
      have hm2 : ansiMatch (a :: (m ++ [c])) = none := by
        by_cases ha : a = ESC
        · simp only [ansiMatch, ha, if_true] at hm ⊢
          rw [afterM_eq_none] at hm ⊢
          simp only [List.mem_append, List.mem_singleton, not_or]
          exact ⟨hm, fun e => hc e.symm⟩
        · simp [ansiMatch, ha]
      rw [List.cons_append, stripAnsi_cons_keep hm2, stripAnsi_cons_keep hm,
        stripAnsi_snoc_aux c hc n m (by omega)]
      rfl

/-- A trailing byte other than `m` is never part of a match: it stays in place. -/
theorem stripAnsi_snoc (m : List Byte) (c : Byte) (hc : c ≠ LetterM) :
    stripAnsi (m ++ [c]) = stripAnsi m ++ [c] :=
  stripAnsi_snoc_aux c hc m.length m (le_refl _)

theorem stripped_snoc_LF (app : App) (m : List Byte) :
    app.stripped (m ++ [LF]) = app.stripped m ++ [LF] := by
  unfold App.stripped
  split
  · exact stripAnsi_snoc m LF (by decide)
  · rfl

/-! ## Lemmas on `processMessages` -/

theorem splitDelim_line (d : Byte) : ∀ (c rest : List Byte), d ∉ c →
    splitDelim d (c ++ d :: rest) = some (c ++ [d], rest)
  | [], rest, _ => by simp [splitDelim]
  | a :: c, rest, h => by
    have ha : ¬ a = d := fun e => h (by simp [e])
    have hc : d ∉ c := fun e => h (List.mem_cons_of_mem _ e)
    simp [splitDelim, ha, splitDelim_line d c rest hc]

theorem splitDelim_none (d : Byte) : ∀ (s : List Byte), d ∉ s → splitDelim d s = none
  | [], _ => rfl
  | a :: s, h => by
    have ha : ¬ a = d := fun e => h (by simp [e])
    have hs : d ∉ s := fun e => h (List.mem_cons_of_mem _ e)
    simp [splitDelim, ha, splitDelim_none d s hs]

/-- One iteration on a terminated line that parses to a message which is not
empty after the optional stripping: the entry is logged without its last byte
and the loop goes on with the rest of the body. -/
theorem processLoop_line (app : App) (n : Nat) (c rest : List Byte) (f : Option String)
    (es : List (Nat × List Byte)) (e : LogEntry) (hc : LF ∉ c)
    (hp : app.parse (c ++ [LF]) = .ok e) (hm : app.stripped e.Message ≠ []) :
    app.processLoop (n + 1) false ⟨c ++ LF :: rest, f⟩ (.mem es) =
      app.processLoop n false ⟨rest, f⟩
        (.mem (es ++ [(e.Time, (app.stripped e.Message).dropLast)])) := by
  rw [App.processLoop]
  simp [Reader.ReadBytes, splitDelim_line LF c rest hc, hp, sliceLast, hm, logger.Log]

/-- The iteration that finds the body exhausted: nothing is parsed or logged. -/
theorem processLoop_end (app : App) (n : Nat) (l : logger) :
    app.processLoop (n + 1) false ⟨[], none⟩ l = (.nil, l) := by
  rw [App.processLoop]
  simp [Reader.ReadBytes, splitDelim]

/-- The iteration on a non-empty last line without terminator: the entry is
logged with its whole message and the loop ends. -/
theorem processLoop_last (app : App) (n : Nat) (s : List Byte)
    (es : List (Nat × List Byte)) (e : LogEntry) (hs : LF ∉ s) (hne : s ≠ [])
    (hp : app.parse s = .ok e) :
    app.processLoop (n + 1) false ⟨s, none⟩ (.mem es) =
      (.nil, .mem (es ++ [(e.Time, app.stripped e.Message)])) := by
  rw [App.processLoop]
  simp [Reader.ReadBytes, splitDelim_none LF s hs, hp, hne, logger.Log]

theorem length_le_length_flatten : ∀ (lines : List (List Byte)),
    (∀ l ∈ lines, l ≠ []) → lines.length ≤ lines.flatten.length
  | [], _ => by simp
  | l :: ls, h => by
    have h1 : l ≠ [] := h l (List.mem_cons_self _ _)
    have h2 := length_le_length_flatten ls (fun x hx => h x (List.mem_cons_of_mem _ hx))
    have h3 : 0 < l.length := List.length_pos.mpr h1
    simp only [List.flatten_cons, List.length_append, List.length_cons]
    omega

theorem processLoop_complete_lines (app : App) : ∀ (lines : List (List Byte))
    (msgs : List (Nat × List Byte)) (es : List (Nat × List Byte)) (n : Nat),
    (∀ l ∈ lines, ∃ c, l = c ++ [LF] ∧ LF ∉ c) →
    lines.map app.parse = msgs.map (fun tm => Except.ok ⟨tm.1, tm.2 ++ [LF]⟩) →
    lines.length < n →
    app.processLoop n false ⟨lines.flatten, none⟩ (.mem es) =
      (.nil, .mem (es ++ msgs.map (fun tm => (tm.1, app.stripped tm.2))))
  | [], msgs, es, n, _, hp, hn => by
    have : msgs = [] := by simpa using hp.symm
    subst this
    obtain ⟨k, rfl⟩ : ∃ k, n = k + 1 := ⟨n - 1, by omega⟩
    simpa using processLoop_end app k (.mem es)
  | l :: ls, [], _, _, _, hp, _ => by simp at hp
  | l :: ls, tm :: ms, es, n, hl, hp, hn => by
    obtain ⟨k, rfl⟩ : ∃ k, n = k + 1 := ⟨n - 1, by omega⟩
    obtain ⟨c, rfl, hc⟩ := hl l (List.mem_cons_self _ _)
    simp only [List.map_cons, List.cons.injEq] at hp
    have hne : app.stripped (LogEntry.mk tm.1 (tm.2 ++ [LF])).Message ≠ [] := by
      simp [stripped_snoc_LF]
    have hstep := processLoop_line app k c ls.flatten none es ⟨tm.1, tm.2 ++ [LF]⟩ hc hp.1 hne
    simp only [List.length_cons] at hn
    have hrec := processLoop_complete_lines app ls ms
      (es ++ [(tm.1, (app.stripped (tm.2 ++ [LF])).dropLast)]) k
      (fun x hx => hl x (List.mem_cons_of_mem _ hx)) hp.2 (by omega)
    have hflat : ((c ++ [LF]) :: ls).flatten = c ++ LF :: ls.flatten := by simp
    rw [hflat, hstep, hrec]
    simp [stripped_snoc_LF]

/-! ## C1: bodies made of complete lines -/

/-- C1 (amended): for a body made of N complete lines (N ≥ 0) and a parse
function that succeeds on each line with a message ending in the line-feed,
`processMessages` returns no error and appends exactly N entries to the sink, in
body order, the i-th being the time of `parse (line i)` and its message without
the trailing line-feed, ANSI-stripped when `stripAnsiCodes` is set; nothing is
appended twice and nothing for the empty remainder after the last line-feed. -/
theorem processMessages_complete_lines (app : App) (lines : List (List Byte))
    (msgs : List (Nat × List Byte)) (es : List (Nat × List Byte))
    (hlines : ∀ l ∈ lines, ∃ c, l = c ++ [LF] ∧ LF ∉ c)
    (hparse : lines.map app.parse = msgs.map (fun tm => Except.ok ⟨tm.1, tm.2 ++ [LF]⟩)) :
    app.processMessages ⟨lines.flatten, none⟩ (.mem es) =
        (.nil, .mem (es ++ msgs.map (fun tm => (tm.1, app.stripped tm.2)))) ∧
      (msgs.map (fun tm => (tm.1, app.stripped tm.2))).length = lines.length ∧
      (app.stripAnsiCodes = false →
        app.processMessages ⟨lines.flatten, none⟩ (.mem es) = (.nil, .mem (es ++ msgs))) := by
  have hne : ∀ l ∈ lines, l ≠ [] := by
    intro l hl
    obtain ⟨c, rfl, _⟩ := hlines l hl
    simp
  have hlen := length_le_length_flatten lines hne
  have hmain : app.processMessages ⟨lines.flatten, none⟩ (.mem es) =
      (.nil, .mem (es ++ msgs.map (fun tm => (tm.1, app.stripped tm.2)))) :=
    processLoop_complete_lines app lines msgs es _ hlines hparse (by simp only; omega)
  refine ⟨hmain, ?_, ?_⟩
  · have := congrArg List.length hparse
    simpa using this.symm
  · intro hs
    rw [hmain]
    simp [App.stripped, hs]

/-- C1, at a concrete input: two complete lines, stripping enabled. -/
theorem processMessages_complete_lines_witness :
    (App.new 0 true [] [] parseWhole).processMessages
        ⟨[[27, 91, 48, 109, 104, 105, 10], [10]].flatten, none⟩ (.mem [(0, [120])]) =
      (.nil, .mem ([(0, [120])] ++ [(7, [27, 91, 48, 109, 104, 105]), (1, [])].map
        (fun tm => (tm.1, (App.new 0 true [] [] parseWhole).stripped tm.2)))) ∧
    ([(7, [27, 91, 48, 109, 104, 105]), (1, [])].map
        (fun tm => (tm.1, (App.new 0 true [] [] parseWhole).stripped tm.2))).length =
      [[27, 91, 48, 109, 104, 105, 10], [10]].length ∧
    ((App.new 0 true [] [] parseWhole).stripAnsiCodes = false →
      (App.new 0 true [] [] parseWhole).processMessages
        ⟨[[27, 91, 48, 109, 104, 105, 10], [10]].flatten, none⟩ (.mem [(0, [120])]) =
      (.nil, .mem ([(0, [120])] ++ [(7, [27, 91, 48, 109, 104, 105]), (1, [])]))) :=
  processMessages_complete_lines (App.new 0 true [] [] parseWhole)
    [[27, 91, 48, 109, 104, 105, 10], [10]] [(7, [27, 91, 48, 109, 104, 105]), (1, [])]
    [(0, [120])]
    (by
      intro l hl
      simp only [List.mem_cons, List.mem_singleton, List.not_mem_nil, or_false] at hl
      rcases hl with rfl | rfl
      · exact ⟨[27, 91, 48, 109, 104, 105], rfl, by decide⟩
      · exact ⟨[], rfl, by decide⟩)
    (by rfl)

/-- C1 as stated fails when `stripAnsiCodes` is set: for the one-line body
`"\x1b[0mhi\n"` and a parse function returning the line as the message, the entry
appended is `"hi"`, not the parsed message `"\x1b[0mhi"` without its line-feed. -/
theorem processMessages_complete_lines_stripped_differs :
    parseWhole [27, 91, 48, 109, 104, 105, 10] = .ok ⟨7, [27, 91, 48, 109, 104, 105] ++ [LF]⟩ ∧
    (App.new 0 true [] [] parseWhole).processMessages
        ⟨[27, 91, 48, 109, 104, 105, 10], none⟩ (.mem []) = (.nil, .mem [(7, [104, 105])]) ∧
    (App.new 0 true [] [] parseWhole).processMessages
        ⟨[27, 91, 48, 109, 104, 105, 10], none⟩ (.mem []) ≠
      (.nil, .mem [(7, [27, 91, 48, 109, 104, 105])]) :=
  ⟨rfl, by decide, by decide⟩

/-! ## The registry -/

theorem lookup_eq_none : ∀ (k : List Byte) (m : List (List Byte × logger)),
    lookup k m = none ↔ k ∉ m.map Prod.fst
  | _, [] => by simp [lookup]
  | k, (k', v) :: m => by
    by_cases h : k' = k
    · simp [lookup, h]
    · have h' : ¬ k = k' := fun e => h e.symm
      simp [lookup, h, h', lookup_eq_none k m]

theorem lookup_of_mem (k : List Byte) (m : List (List Byte × logger))
    (h : k ∈ m.map Prod.fst) : ∃ l, lookup k m = some l := by
  cases hl : lookup k m with
  | some l => exact ⟨l, rfl⟩
  | none => exact absurd h ((lookup_eq_none k m).mp hl)

theorem store_keys_of_not_mem : ∀ (k : List Byte) (v : logger) (m : List (List Byte × logger)),
    k ∉ m.map Prod.fst → (store k v m).map Prod.fst = m.map Prod.fst ++ [k]
  | _, _, [], _ => by simp [store]
  | k, v, (k', v') :: m, h => by
    have h1 : ¬ k' = k := fun e => h (by simp [e])
    have h2 : k ∉ m.map Prod.fst := fun e => h (by simp at e ⊢; exact Or.inr e)
    simp [store, h1, store_keys_of_not_mem k v m h2]

theorem store_keys : ∀ (k : List Byte) (v : logger) (m : List (List Byte × logger)),
    k ∈ m.map Prod.fst → (store k v m).map Prod.fst = m.map Prod.fst
  | _, _, [], h => by simp at h
  | k, v, (k', v') :: m, h => by
    by_cases h1 : k' = k
    · simp [store, h1]
    · have h2 : k ∈ m.map Prod.fst := by
        simp only [List.map_cons, List.mem_cons] at h
        rcases h with e | e
        · exact absurd e.symm h1
        · exact e
      simp [store, h1, store_keys k v m h2]

theorem lookup_store_self : ∀ (k : List Byte) (v : logger) (m : List (List Byte × logger)),
    lookup k (store k v m) = some v
  | _, _, [] => by simp [store, lookup]
  | k, v, (k', v') :: m => by
    by_cases h : k' = k
    · simp [store, lookup, h]
    · simp [store, lookup, h, lookup_store_self k v m]

/-- A call for a name that is in the registry: the stored value and a nil error
are returned, nothing is constructed and nothing changes. -/
theorem logger_hit (app : App) (name : List Byte) (outcome : Option String) (l : logger)
    (h : lookup name app.loggers = some l) : app.logger name outcome = ((l, none), app) := by
  simp [App.logger, h]

/-- A call for a name that is not in the registry: `cwlogger.New` is invoked
once and what it returns is stored under the name, whether it failed or not. -/
theorem logger_miss (app : App) (name : List Byte) (outcome : Option String)
    (h : lookup name app.loggers = none) :
    app.logger name outcome =
      (cwloggerNew outcome,
       { app with loggers := store name (cwloggerNew outcome).1 app.loggers,
                  newCalls := app.newCalls ++ [name] }) := by
  simp [App.logger, h]

/-- Along a run of `App.logger` calls the keys of the registry are the names
`cwlogger.New` was invoked with, each once: the earlier ones and the names called. -/
theorem runLogger_inv : ∀ (calls : List (List Byte × Option String)) (app : App),
    app.loggers.map Prod.fst = app.newCalls → app.newCalls.Nodup →
    (runLogger app calls).loggers.map Prod.fst = (runLogger app calls).newCalls ∧
    (runLogger app calls).newCalls.Nodup ∧
    ∀ k, k ∈ (runLogger app calls).newCalls ↔ k ∈ app.newCalls ∨ k ∈ calls.map Prod.fst
  | [], app, hk, hn => by simp [runLogger, hk, hn]
  | (name, outcome) :: calls, app, hk, hn => by
    cases hl : lookup name app.loggers with
    | some l =>
      have hmem : name ∈ app.newCalls := by
        rw [← hk]
        by_contra hc
        rw [(lookup_eq_none name app.loggers).mpr hc] at hl
        cases hl
      obtain ⟨h1, h2, h3⟩ := runLogger_inv calls app hk hn
      simp only [runLogger, logger_hit app name outcome l hl]
      refine ⟨h1, h2, fun k => ?_⟩
      rw [h3 k]
      simp only [List.map_cons, List.mem_cons]
      constructor
      · rintro (h | h)
        · exact Or.inl h
        · exact Or.inr (Or.inr h)
      · rintro (h | h | h)
        · exact Or.inl h
        · exact Or.inl (h ▸ hmem)
        · exact Or.inr h
    | none =>
      have hnot : name ∉ app.newCalls := by
        rw [← hk]
        exact (lookup_eq_none name app.loggers).mp hl
      have hk2 : (store name (cwloggerNew outcome).1 app.loggers).map Prod.fst =
          app.newCalls ++ [name] := by
        rw [store_keys_of_not_mem _ _ _ ((lookup_eq_none name app.loggers).mp hl), hk]
      have hn2 : (app.newCalls ++ [name]).Nodup := by
        rw [List.nodup_append]
        refine ⟨hn, List.nodup_singleton _, ?_⟩
        intro a ha hb
        rw [List.mem_singleton] at hb
        exact hnot (hb ▸ ha)
      obtain ⟨h1, h2, h3⟩ := runLogger_inv calls
        { app with loggers := store name (cwloggerNew outcome).1 app.loggers,
                   newCalls := app.newCalls ++ [name] } hk2 hn2
      simp only [runLogger, logger_miss app name outcome hl]
      refine ⟨h1, h2, fun k => ?_⟩
      rw [h3 k]
      simp only [List.map_cons, List.mem_cons, List.mem_append, List.mem_singleton]
      tauto

theorem lookup_store_other : ∀ (k k' : List Byte) (v : logger) (m : List (List Byte × logger)),
    k ≠ k' → lookup k (store k' v m) = lookup k m
  | k, k', v, [], h => by
    have h' : ¬ k' = k := fun e => h e.symm
    simp [store, lookup, h']
  | k, k', v, (k'', v') :: m, h => by
    by_cases h1 : k'' = k'
    · have h2 : ¬ k'' = k := fun e => h (e.symm.trans h1)
      simp [store, lookup, h1, h2, h1 ▸ h2]
    · by_cases h2 : k'' = k
      · simp [store, lookup, h1, h2, h2 ▸ h1]
      · simp [store, lookup, h1, h2, lookup_store_other k k' v m h]

theorem length_filter_eq_of_nodup (k : List Byte) : ∀ (l : List (List Byte)), l.Nodup →
    (l.filter (fun x => decide (x = k))).length = if k ∈ l then 1 else 0
  | [], _ => by simp
  | a :: l, h => by
    have hl := length_filter_eq_of_nodup k l (List.nodup_cons.mp h).2
    have ha : a ∉ l := (List.nodup_cons.mp h).1
    by_cases e : a = k
    · subst e
      simp only [if_neg ha] at hl
      simp [List.filter_cons, hl]
    · have e' : ¬ k = a := fun x => e x.symm
      simp only [List.filter_cons, e, decide_False, List.mem_cons, e', false_or]
      exact hl

theorem runLogger_append : ∀ (a b : List (List Byte × Option String)) (app : App),
    runLogger app (a ++ b) = runLogger (runLogger app a) b
  | [], _, _ => rfl
  | (name, outcome) :: a, b, app => by
    simp only [List.cons_append, runLogger]
    exact runLogger_append a b _

/-- A stored value stays as it is through later `App.logger` calls. -/
theorem runLogger_lookup : ∀ (calls : List (List Byte × Option String)) (app : App)
    (name : List Byte) (l : logger), lookup name app.loggers = some l →
    lookup name (runLogger app calls).loggers = some l
  | [], _, _, _, h => h
  | (k, outcome) :: calls, app, name, l, h => by
    simp only [runLogger]
    apply runLogger_lookup calls
    cases hk : lookup k app.loggers with
    | some l' => simpa [logger_hit app k outcome l' hk] using h
    | none =>
      have hne : name ≠ k := by
        rintro rfl
        rw [hk] at h
        cases h
      simp only [logger_miss app k outcome hk]
      rw [lookup_store_other name k _ _ hne]
      exact h

/-- C7: along every sequence of `App.logger` calls on the registry `main`
creates, `cwlogger.New` is invoked exactly once for each name called and never
for another, the registry holds one entry per name, a call for a name called
before returns the stored logger with nothing constructed or changed, a call
for a new name constructs and stores, and the stored logger is the one the
first call for the name constructed. -/
theorem logger_constructs_once (retention : Int) (strip : Bool) (user pass : List Byte)
    (parse : ParseFunc) (calls : List (List Byte × Option String)) (name : List Byte)
    (outcome : Option String) :
    (∀ k, ((runLogger (App.new retention strip user pass parse) calls).newCalls.filter
          (fun x => decide (x = k))).length = if k ∈ calls.map Prod.fst then 1 else 0) ∧
    ((runLogger (App.new retention strip user pass parse) calls).loggers.map Prod.fst).Nodup ∧
    (name ∈ calls.map Prod.fst →
      ∃ l, lookup name (runLogger (App.new retention strip user pass parse) calls).loggers
            = some l ∧
        (runLogger (App.new retention strip user pass parse) calls).logger name outcome =
          ((l, none), runLogger (App.new retention strip user pass parse) calls)) ∧
    (name ∉ calls.map Prod.fst →
      ((runLogger (App.new retention strip user pass parse) calls).logger name outcome).1 =
          cwloggerNew outcome ∧
        ((runLogger (App.new retention strip user pass parse) calls).logger name outcome).2.newCalls
          = (runLogger (App.new retention strip user pass parse) calls).newCalls ++ [name] ∧
        lookup name
          ((runLogger (App.new retention strip user pass parse) calls).logger name outcome).2.loggers
          = some (cwloggerNew outcome).1) ∧
    (∀ before after first, calls = before ++ (name, first) :: after →
      name ∉ before.map Prod.fst →
      lookup name (runLogger (App.new retention strip user pass parse) calls).loggers =
        some (cwloggerNew first).1) := by
  obtain ⟨h1, h2, h3⟩ := runLogger_inv calls (App.new retention strip user pass parse) rfl
    List.nodup_nil
  have h3' : ∀ k, k ∈ (runLogger (App.new retention strip user pass parse) calls).newCalls ↔
      k ∈ calls.map Prod.fst := by
    intro k
    rw [h3 k]
    simp [App.new]
  refine ⟨?_, ?_, ?_, ?_, ?_⟩
  · intro k
    rw [length_filter_eq_of_nodup k _ h2]
    by_cases hk : k ∈ calls.map Prod.fst
    · rw [if_pos hk, if_pos ((h3' k).mpr hk)]
    · rw [if_neg hk, if_neg (fun h => hk ((h3' k).mp h))]
  · rw [h1]
    exact h2
  · intro hmem
    have hkey : name ∈
        (runLogger (App.new retention strip user pass parse) calls).loggers.map Prod.fst := by
      rw [h1]
      exact (h3' name).mpr hmem
    obtain ⟨l, hl⟩ := lookup_of_mem name _ hkey
    exact ⟨l, hl, logger_hit _ name outcome l hl⟩
  · intro hnot
    have hkey : name ∉
        (runLogger (App.new retention strip user pass parse) calls).loggers.map Prod.fst := by
      rw [h1]
      exact fun h => hnot ((h3' name).mp h)
    have hl := (lookup_eq_none name _).mpr hkey
    rw [logger_miss _ name outcome hl]
    exact ⟨rfl, rfl, lookup_store_self _ _ _⟩
  · intro before after first hc hnot
    subst hc
    rw [runLogger_append]
    simp only [runLogger]
    apply runLogger_lookup
    obtain ⟨g1, _, g3⟩ := runLogger_inv before (App.new retention strip user pass parse) rfl
      List.nodup_nil
    have hkey : name ∉
        (runLogger (App.new retention strip user pass parse) before).loggers.map Prod.fst := by
      rw [g1]
      intro h
      apply hnot
      simpa [App.new] using (g3 name).mp h
    have hl := (lookup_eq_none name _).mpr hkey
    rw [logger_miss _ name first hl]
    exact lookup_store_self _ _ _

/-! ## The handler -/

/-- The credentials check of `ServeHTTP` (lines 97 to 101): on a mismatch the
handler writes 403 and returns, before `App.logger` and `processMessages`. -/
theorem ServeHTTP_mismatch (app : App) (r : Request) (outcome : Option String)
    (d : List Byte) (hm : r.Method = "POST") (hp : r.Path = Slash :: d) (hd : d ≠ [])
    (hc : r.BasicAuth.1 ≠ app.user ∨ r.BasicAuth.2.1 ≠ app.pass) :
    app.ServeHTTP r outcome = (some ⟨403, ""⟩, app) := by
  simp only [App.ServeHTTP, hp, hm]
  simp [hd, hc]

/-- C3 (amended): a POST request with a non-empty destination whose Basic
credentials, read as the pair of empty strings when the request carries none,
differ from the configured pair is answered 403 Forbidden; the registry is left
as it was (no logger is constructed) and no entry is appended to any logger. -/
theorem ServeHTTP_forbidden (app : App) (r : Request) (outcome : Option String)
    (d : List Byte) (hm : r.Method = "POST") (hp : r.Path = Slash :: d) (hd : d ≠ [])
    (hc : (r.BasicAuth.1, r.BasicAuth.2.1) ≠ (app.user, app.pass)) :
    app.ServeHTTP r outcome = (some ⟨403, ""⟩, app) := by
  have hc' : r.BasicAuth.1 ≠ app.user ∨ r.BasicAuth.2.1 ≠ app.pass := by
    by_contra hn
    push_neg at hn
    exact hc (by rw [hn.1, hn.2])
  exact ServeHTTP_mismatch app r outcome d hm hp hd hc'

/-- C3, at a concrete input: a wrong password and a request without credentials. -/
theorem ServeHTTP_forbidden_witness :
    (App.new 0 false [117] [112] parseWhole).ServeHTTP
        (postRequest [47, 97] (some ([117], [113])) [104, 105, 10]) none =
      (some ⟨403, ""⟩, App.new 0 false [117] [112] parseWhole) ∧
    (App.new 0 false [117] [112] parseWhole).ServeHTTP
        (postRequest [47, 97] none [104, 105, 10]) none =
      (some ⟨403, ""⟩, App.new 0 false [117] [112] parseWhole) :=
  ⟨ServeHTTP_forbidden (App.new 0 false [117] [112] parseWhole)
      (postRequest [47, 97] (some ([117], [113])) [104, 105, 10]) none [97] rfl rfl
      (by decide) (by decide),
   ServeHTTP_forbidden (App.new 0 false [117] [112] parseWhole)
      (postRequest [47, 97] none [104, 105, 10]) none [97] rfl rfl (by decide) (by decide)⟩

/-- C3 as stated fails for missing credentials when the configured pair is the
pair of empty strings (the default of the `-user` and `-pass` flags): the POST
request to `/a` without credentials is answered 202, a logger is constructed
for `a` and the line of the body is appended to it. -/
theorem ServeHTTP_missing_credentials_accepted :
    (postRequest [47, 97] none [104, 105, 10]).BasicAuth = ([], [], false) ∧
    ((App.new 0 false [] [] parseWhole).ServeHTTP
        (postRequest [47, 97] none [104, 105, 10]) none).1 = some ⟨202, ""⟩ ∧
    ((App.new 0 false [] [] parseWhole).ServeHTTP
        (postRequest [47, 97] none [104, 105, 10]) none).2.newCalls = [[97]] ∧
    ((App.new 0 false [] [] parseWhole).ServeHTTP
        (postRequest [47, 97] none [104, 105, 10]) none).2.loggers =
      [([97], .mem [(3, [104, 105])])] := by
  decide

/-- C4 (amended): when the configured username or password is the empty
string, a POST request with a non-empty destination is answered 403 exactly
when its Basic credentials, read as the pair of empty strings when the request
carries none, differ from the configured pair; a request presenting the
configured pair is never answered 403, and whenever the handler writes a
response for it, that response is 202 or 500. -/
theorem ServeHTTP_empty_config (app : App) (r : Request) (outcome : Option String)
    (d : List Byte) (he : app.user = [] ∨ app.pass = []) (hm : r.Method = "POST")
    (hp : r.Path = Slash :: d) (hd : d ≠ []) :
    ((app.ServeHTTP r outcome).1 = some ⟨403, ""⟩ ↔
      (r.BasicAuth.1, r.BasicAuth.2.1) ≠ (app.user, app.pass)) ∧
    ((r.BasicAuth.1, r.BasicAuth.2.1) = (app.user, app.pass) →
      (∀ resp, (app.ServeHTTP r outcome).1 = some resp → resp.status ≠ 403) ∧
      (∀ resp, (app.ServeHTTP r outcome).1 = some resp →
        resp = ⟨202, ""⟩ ∨ resp = ⟨500, ""⟩)) := by
  have _hconf := he
  by_cases hc : (r.BasicAuth.1, r.BasicAuth.2.1) = (app.user, app.pass)
  · have h1 : r.BasicAuth.1 = app.user := congrArg Prod.fst hc
    have h2 : r.BasicAuth.2.1 = app.pass := congrArg Prod.snd hc
    have key : ∀ resp, (app.ServeHTTP r outcome).1 = some resp →
        resp = ⟨202, ""⟩ ∨ resp = ⟨500, ""⟩ := by
      intro resp
      simp only [App.ServeHTTP, hp, hm]
      simp only [hd, h1, h2, ne_eq, not_true_eq_false, or_self, if_false, reduceCtorEq,
        String.reduceEq]
      rcases app.logger d outcome with ⟨⟨l, err⟩, app1⟩
      cases err with
      | some e =>
        simp only [Option.some.injEq]
        rintro rfl
        exact Or.inr rfl
      | none =>
        simp only
        rcases app1.processMessages r.Body l with ⟨res, l'⟩
        cases res <;> simp only [Option.some.injEq, reduceCtorEq, false_implies] <;>
          (rintro rfl; first | exact Or.inl rfl | exact Or.inr rfl)
    have key2 : ∀ resp, (app.ServeHTTP r outcome).1 = some resp → resp.status ≠ 403 := by
      intro resp h
      rcases key resp h with e | e <;> simp [e]
    refine ⟨?_, fun _ => ⟨key2, key⟩⟩
    constructor
    · intro h
      exact absurd rfl (key2 _ h)
    · intro h
      exact absurd hc h
  · refine ⟨?_, fun h => absurd h hc⟩
    constructor
    · intro _
      exact hc
    · intro _
      have hc' : r.BasicAuth.1 ≠ app.user ∨ r.BasicAuth.2.1 ≠ app.pass := by
        by_contra hn
        push_neg at hn
        exact hc (by rw [hn.1, hn.2])
      rw [ServeHTTP_mismatch app r outcome d hm hp hd hc']

/-- C4, at concrete inputs: an empty configured username; a request with
another username, which is rejected, and a request with the configured
credentials, which is not. -/
theorem ServeHTTP_empty_config_witness :
    ((App.new 0 false [] [112] parseWhole).user = [] ∨
      (App.new 0 false [] [112] parseWhole).pass = []) ∧
    ((App.new 0 false [] [112] parseWhole).ServeHTTP
        (postRequest [47, 97] (some ([117], [112])) [104, 105, 10]) none).1 = some ⟨403, ""⟩ ∧
    (∀ resp, ((App.new 0 false [] [112] parseWhole).ServeHTTP
        (postRequest [47, 97] (some ([], [112])) [104, 105, 10]) none).1 = some resp →
      resp = ⟨202, ""⟩ ∨ resp = ⟨500, ""⟩) :=
  ⟨Or.inl rfl,
   (ServeHTTP_empty_config (App.new 0 false [] [112] parseWhole)
     (postRequest [47, 97] (some ([117], [112])) [104, 105, 10]) none [97] (Or.inl rfl)
     rfl rfl (by decide)).1.mpr (by decide),
   ((ServeHTTP_empty_config (App.new 0 false [] [112] parseWhole)
     (postRequest [47, 97] (some ([], [112])) [104, 105, 10]) none [97] (Or.inl rfl)
     rfl rfl (by decide)).2 rfl).2⟩

/-- C4 as stated fails: with the configured username empty and the password
`p`, the POST request to `/a` carrying exactly these credentials is answered
202, not 403. -/
theorem ServeHTTP_empty_user_accepted :
    (App.new 0 false [] [112] parseWhole).user = [] ∧
    ((App.new 0 false [] [112] parseWhole).ServeHTTP
        (postRequest [47, 97] (some ([], [112])) [104, 105, 10]) none).1 = some ⟨202, ""⟩ := by
  decide

/-- C5: for a request that is not a POST with a non-empty destination the
response depends on method and path only, whatever the app, the credentials and
the body: GET `/` gives 200 `OK`, GET of another path 404 `Not found`, a method
other than GET and POST 400, POST `/` 400; the app, its registry and its
loggers are left as they were. -/
theorem ServeHTTP_without_destination (app app' : App) (r r' : Request)
    (outcome outcome' : Option String) (d : List Byte)
    (hp : r.Path = Slash :: d) (hm' : r'.Method = r.Method) (hp' : r'.Path = r.Path)
    (h : r.Method ≠ "POST" ∨ d = []) :
    (app.ServeHTTP r outcome).2 = app ∧
    (app.ServeHTTP r outcome).1 = (app'.ServeHTTP r' outcome').1 ∧
    (r.Method = "GET" → d = [] → (app.ServeHTTP r outcome).1 = some ⟨200, "OK"⟩) ∧
    (r.Method = "GET" → d ≠ [] → (app.ServeHTTP r outcome).1 = some ⟨404, "Not found"⟩) ∧
    (r.Method ≠ "GET" → r.Method ≠ "POST" →
      (app.ServeHTTP r outcome).1 =
        some ⟨400, "The only accepted request method is POST"⟩) ∧
    (r.Method = "POST" → d = [] →
      (app.ServeHTTP r outcome).1 =
        some ⟨400, "Request path must specify the log group name"⟩) := by
  rw [hp] at hp'
  by_cases hg : r.Method = "GET"
  · by_cases hd : d = []
    · simp [App.ServeHTTP, hp, hp', hm', hg, hd]
    · simp [App.ServeHTTP, hp, hp', hm', hg, hd]
  · by_cases hpost : r.Method = "POST"
    · have hd : d = [] := by
        rcases h with h | h
        · exact absurd hpost h
        · exact h
      simp [App.ServeHTTP, hp, hp', hm', hpost, hd]
    · simp [App.ServeHTTP, hp, hp', hm', hg, hpost]

/-- C5, at concrete inputs: GET `/` on two apps with different credentials. -/
theorem ServeHTTP_without_destination_witness :
    ((App.new 0 false [] [] parseWhole).ServeHTTP
        ⟨"GET", [47], none, ⟨[104, 105, 10], none⟩⟩ none).2 = App.new 0 false [] [] parseWhole ∧
    ((App.new 0 false [] [] parseWhole).ServeHTTP
        ⟨"GET", [47], none, ⟨[104, 105, 10], none⟩⟩ none).1 =
      ((App.new 7 true [117] [112] parseChomp).ServeHTTP
        ⟨"GET", [47], some ([117], [112]), ⟨[], some "reset"⟩⟩ (some "denied")).1 ∧
    (("GET" : String) = "GET" → ([] : List Byte) = [] →
      ((App.new 0 false [] [] parseWhole).ServeHTTP
        ⟨"GET", [47], none, ⟨[104, 105, 10], none⟩⟩ none).1 = some ⟨200, "OK"⟩) ∧
    (("GET" : String) = "GET" → ([] : List Byte) ≠ [] →
      ((App.new 0 false [] [] parseWhole).ServeHTTP
        ⟨"GET", [47], none, ⟨[104, 105, 10], none⟩⟩ none).1 = some ⟨404, "Not found"⟩) ∧
    (("GET" : String) ≠ "GET" → ("GET" : String) ≠ "POST" →
      ((App.new 0 false [] [] parseWhole).ServeHTTP
        ⟨"GET", [47], none, ⟨[104, 105, 10], none⟩⟩ none).1 =
        some ⟨400, "The only accepted request method is POST"⟩) ∧
    (("GET" : String) = "POST" → ([] : List Byte) = [] →
      ((App.new 0 false [] [] parseWhole).ServeHTTP
        ⟨"GET", [47], none, ⟨[104, 105, 10], none⟩⟩ none).1 =
        some ⟨400, "Request path must specify the log group name"⟩) :=
  ServeHTTP_without_destination (App.new 0 false [] [] parseWhole)
    (App.new 7 true [117] [112] parseChomp)
    ⟨"GET", [47], none, ⟨[104, 105, 10], none⟩⟩
    ⟨"GET", [47], some ([117], [112]), ⟨[], some "reset"⟩⟩ none (some "denied") [] rfl rfl rfl
    (Or.inl (by decide))

theorem splitDelim_length (d : Byte) : ∀ (s l rest : List Byte),
    splitDelim d s = some (l, rest) → rest.length < s.length
  | [], _, _, h => by simp [splitDelim] at h
  | a :: s, l, rest, h => by
    by_cases ha : a = d
    · simp only [splitDelim, ha, if_true, Option.some.injEq, Prod.mk.injEq] at h
      simp [← h.2]
    · cases hs : splitDelim d s with
      | none => simp [splitDelim, ha, hs] at h
      | some p =>
        obtain ⟨l', rest'⟩ := p
        simp only [splitDelim, ha, hs, if_false, Option.some.injEq, Prod.mk.injEq] at h
        have := splitDelim_length d s l' rest' hs
        rw [← h.2]
        simp only [List.length_cons]
        omega

/-- The bound on the iterations is never reached: every iteration but the last
consumes at least one byte of the body. -/
theorem processLoop_steps (app : App) : ∀ (n : Nat) (eof : Bool) (buf : Reader) (l : logger),
    buf.data.length < n → (app.processLoop n eof buf l).1 ≠ .outOfSteps
  | 0, _, _, _, h => by simp at h
  | n + 1, eof, buf, l, h => by
    rw [App.processLoop]
    cases hs : splitDelim LF buf.data with
    | none =>
      cases hf : buf.fail with
      | some msg => simp [Reader.ReadBytes, hs, hf]
      | none =>
        by_cases hd : buf.data = []
        · simp [Reader.ReadBytes, hf, hd, splitDelim]
        · cases hp : app.parse buf.data with
          | error e => simp [Reader.ReadBytes, hs, hf, hd, hp]
          | ok entry =>
            cases hl : l.Log entry.Time (app.stripped entry.Message) <;>
              simp [Reader.ReadBytes, hs, hf, hd, hp, hl]
    | some p =>
      obtain ⟨line, rest⟩ := p
      have hlen := splitDelim_length LF buf.data line rest hs
      cases eof with
      | true =>
        by_cases hd : line = []
        · simp [Reader.ReadBytes, hs, hd]
        · cases hp : app.parse line with
          | error e => simp [Reader.ReadBytes, hs, hd, hp]
          | ok entry =>
            cases hl : l.Log entry.Time (app.stripped entry.Message) <;>
              simp [Reader.ReadBytes, hs, hd, hp, hl]
      | false =>
        cases hp : app.parse line with
        | error e => simp [Reader.ReadBytes, hs, hp]
        | ok entry =>
          cases hm : sliceLast (app.stripped entry.Message) with
          | none => simp [Reader.ReadBytes, hs, hp, hm]
          | some m =>
            cases hl : l.Log entry.Time m with
            | none => simp [Reader.ReadBytes, hs, hp, hm, hl]
            | some l' =>
              simp only [Reader.ReadBytes, hs, hp, hm, hl, reduceCtorEq, if_false,
                Bool.false_and, Bool.false_eq_true, Bool.not_false, if_true]
              exact processLoop_steps app n false ⟨rest, buf.fail⟩ l' (by simp only; omega)

/-- The method `processMessages` comes to an end on every body: it returns nil
or an error, or it panics. -/
theorem processMessages_terminates (app : App) (r : Reader) (l : logger) :
    (app.processMessages r l).1 ≠ .outOfSteps :=
  processLoop_steps app _ false r l (Nat.lt_succ_self _)

/-! ## What `processMessages` does when no message is empty

The statements of this section carry the proviso that every terminated line
parses to a message that is not empty after the optional stripping; without it
the slice `m[:len(m)-1]` panics, see the next section. -/

/-- The loop on a run of terminated lines: each is logged without the last byte
of its message, then the loop goes on with the rest of the body. -/
theorem processLoop_lines (app : App) : ∀ (lines : List (List Byte)) (ents : List LogEntry)
    (rest : List Byte) (f : Option String) (es : List (Nat × List Byte)) (n : Nat),
    (∀ l ∈ lines, ∃ c, l = c ++ [LF] ∧ LF ∉ c) →
    lines.map app.parse = ents.map Except.ok →
    (∀ e ∈ ents, app.stripped e.Message ≠ []) →
    app.processLoop (n + lines.length) false ⟨lines.flatten ++ rest, f⟩ (.mem es) =
      app.processLoop n false ⟨rest, f⟩
        (.mem (es ++ ents.map (fun e => (e.Time, (app.stripped e.Message).dropLast))))
  | [], ents, rest, f, es, n, _, hp, _ => by
    have : ents = [] := by simpa using hp.symm
    subst this
    simp
  | l :: ls, [], _, _, _, _, _, hp, _ => by simp at hp
  | l :: ls, e :: ents, rest, f, es, n, hl, hp, hm => by
    obtain ⟨c, rfl, hc⟩ := hl l (List.mem_cons_self _ _)
    simp only [List.map_cons, List.cons.injEq] at hp
    have hstep := processLoop_line app (n + ls.length) c (ls.flatten ++ rest) f es e hc hp.1
      (hm e (List.mem_cons_self _ _))
    have hrec := processLoop_lines app ls ents rest f
      (es ++ [(e.Time, (app.stripped e.Message).dropLast)]) n
      (fun x hx => hl x (List.mem_cons_of_mem _ hx)) hp.2
      (fun x hx => hm x (List.mem_cons_of_mem _ hx))
    have hflat : ((c ++ [LF]) :: ls).flatten ++ rest = c ++ LF :: (ls.flatten ++ rest) := by
      simp
    rw [hflat, List.length_cons, ← Nat.add_assoc, hstep, hrec]
    simp

/-- With the proviso, a body of terminated lines followed by a non-empty line
without terminator yields the entries of the terminated lines and then the
entry of the last line with its whole message. -/
theorem processMessages_unterminated_last (app : App) (lines : List (List Byte))
    (ents : List LogEntry) (s : List Byte) (e : LogEntry) (es : List (Nat × List Byte))
    (hlines : ∀ l ∈ lines, ∃ c, l = c ++ [LF] ∧ LF ∉ c)
    (hparse : lines.map app.parse = ents.map Except.ok)
    (hmsg : ∀ x ∈ ents, app.stripped x.Message ≠ [])
    (hs : LF ∉ s) (hne : s ≠ []) (hlast : app.parse s = .ok e) :
    app.processMessages ⟨lines.flatten ++ s, none⟩ (.mem es) =
      (.nil, .mem (es ++ ents.map (fun x => (x.Time, (app.stripped x.Message).dropLast)) ++
        [(e.Time, app.stripped e.Message)])) := by
  have hlen := length_le_length_flatten lines (by
    intro l hl
    obtain ⟨c, rfl, _⟩ := hlines l hl
    simp)
  obtain ⟨k, hk⟩ : ∃ k, (lines.flatten ++ s).length + 1 = (k + 1) + lines.length :=
    ⟨(lines.flatten ++ s).length - lines.length, by simp only [List.length_append]; omega⟩
  unfold App.processMessages
  simp only [hk]
  rw [processLoop_lines app lines ents s none es (k + 1) hlines hparse hmsg,
    processLoop_last app k s _ e hs hne hlast]

/-- With the proviso, when the line after a run of well-formed terminated lines
is rejected by the parse function, `processMessages` returns the parse error,
the entries of the earlier lines stay appended and nothing else is appended. -/
theorem processMessages_parse_failure (app : App) (lines : List (List Byte))
    (ents : List LogEntry) (bad rest : List Byte) (err : error) (es : List (Nat × List Byte))
    (hlines : ∀ l ∈ lines, ∃ c, l = c ++ [LF] ∧ LF ∉ c)
    (hparse : lines.map app.parse = ents.map Except.ok)
    (hmsg : ∀ x ∈ ents, app.stripped x.Message ≠ [])
    (hbad : (∃ c, bad = c ++ [LF] ∧ LF ∉ c) ∨ (LF ∉ bad ∧ bad ≠ [] ∧ rest = []))
    (hfail : app.parse bad = .error err) :
    app.processMessages ⟨lines.flatten ++ (bad ++ rest), none⟩ (.mem es) =
      (.parseFailed bad err,
        .mem (es ++ ents.map (fun x => (x.Time, (app.stripped x.Message).dropLast)))) := by
  have hlen := length_le_length_flatten lines (by
    intro l hl
    obtain ⟨c, rfl, _⟩ := hlines l hl
    simp)
  obtain ⟨k, hk⟩ : ∃ k, (lines.flatten ++ (bad ++ rest)).length + 1 = (k + 1) + lines.length :=
    ⟨(lines.flatten ++ (bad ++ rest)).length - lines.length, by
      simp only [List.length_append]; omega⟩
  unfold App.processMessages
  simp only [hk]
  rw [processLoop_lines app lines ents (bad ++ rest) none es (k + 1) hlines hparse hmsg,
    App.processLoop]
  rcases hbad with ⟨c, rfl, hc⟩ | ⟨hb, hne, rfl⟩
  · have hsplit := splitDelim_line LF c rest hc
    simp [Reader.ReadBytes, hsplit, hfail]
  · simp [Reader.ReadBytes, splitDelim_none LF bad hb, hfail, hne]

/-! ## Inputs on which the code departs from C2, C6, C8 and C9 -/

/-- C2, the code at a failing input: on the body `"\nabc"` with a parse
function that succeeds on both lines and returns an empty message for the first,
`processMessages` panics at `m[:len(m)-1]` on the first line; the entry of the
unterminated last line `abc` is never appended. -/
theorem processMessages_last_line_lost :
    parseChomp [10] = .ok ⟨1, []⟩ ∧
    parseChomp [97, 98, 99] = .ok ⟨3, [97, 98, 99]⟩ ∧
    (App.new 0 false [] [] parseChomp).processMessages ⟨[10, 97, 98, 99], none⟩ (.mem []) =
      (.panicked, .mem []) :=
  ⟨rfl, rfl, by decide⟩

/-- C9, the code at a failing input: on the body `"\n!\n"` with a parse function
that succeeds on the first line (with an empty message) and fails on the
second, `processMessages` panics on the first line instead of returning the
parse error of the second, and the sink has not received the entry of the first. -/
theorem processMessages_panics_before_bad_line :
    parseChomp [10] = .ok ⟨1, []⟩ ∧
    parseChomp [33, 10] = .error (.other "malformed line") ∧
    (App.new 0 false [] [] parseChomp).processMessages ⟨[10, 33, 10], none⟩ (.mem []) =
      (.panicked, .mem []) :=
  ⟨rfl, rfl, by decide⟩

/-- C6, the code at a failing input: a POST to `/a` with matching credentials
and the body `"\n"`, the parse function returning an empty message: `App.logger`
returns no error, `processMessages` panics, and the handler writes no status,
neither 202 nor 500. -/
theorem ServeHTTP_panic_writes_no_status :
    ((App.new 0 false [117] [112] parseChomp).logger [97] none).1.2 = none ∧
    ((App.new 0 false [117] [112] parseChomp).logger [97] none).2.processMessages
        ⟨[10], none⟩ ((App.new 0 false [117] [112] parseChomp).logger [97] none).1.1 =
      (.panicked, .mem []) ∧
    ((App.new 0 false [117] [112] parseChomp).ServeHTTP
        (postRequest [47, 97] (some ([117], [112])) [10]) none).1 = none := by
  decide

/-- C8, the code at a failing input: two POST requests to `/a` with matching
credentials and an empty body, the construction of the logger failing.  The
first is answered 500 and leaves the nil logger in the registry; the second
finds it there, `App.logger` returns it with a nil error without invoking
`cwlogger.New` again, and the request is answered 202, not 500. -/
theorem ServeHTTP_after_failed_construction :
    (App.new 0 false [117] [112] parseWhole).ServeHTTP
        (postRequest [47, 97] (some ([117], [112])) []) (some "denied") =
      (some ⟨500, ""⟩,
        { App.new 0 false [117] [112] parseWhole with
          loggers := [([97], .nilPtr)], newCalls := [[97]] }) ∧
    (∀ outcome, ({ App.new 0 false [117] [112] parseWhole with
          loggers := [([97], .nilPtr)], newCalls := [[97]] } : App).logger [97] outcome =
      ((.nilPtr, none), { App.new 0 false [117] [112] parseWhole with
          loggers := [([97], .nilPtr)], newCalls := [[97]] })) ∧
    (∀ outcome, ({ App.new 0 false [117] [112] parseWhole with
          loggers := [([97], .nilPtr)], newCalls := [[97]] } : App).ServeHTTP
        (postRequest [47, 97] (some ([117], [112])) []) outcome =
      (some ⟨202, ""⟩, { App.new 0 false [117] [112] parseWhole with
          loggers := [([97], .nilPtr)], newCalls := [[97]] })) :=
  ⟨rfl, fun _ => rfl, fun _ => rfl⟩

/-! ## The buffers handed to the parse function -/

theorem processLoopBuffers_fst (app : App) : ∀ (n : Nat) (eof : Bool) (buf : Reader)
    (l : logger), (app.processLoopBuffers n eof buf l).1 = app.processLoop n eof buf l
  | 0, _, _, _ => rfl
  | n + 1, eof, buf, l => by
    rw [App.processLoopBuffers, App.processLoop]
    rcases buf.ReadBytes LF with ⟨b, err, buf'⟩
    have ih := fun l' => processLoopBuffers_fst app n false buf' l'
    rcases err with _ | _ | msg
    · cases eof
      · cases hp : app.parse b with
        | error e => simp [hp]
        | ok entry =>
          cases hm : sliceLast (app.stripped entry.Message) with
          | none => simp [hp, hm]
          | some m => cases hl : l.Log entry.Time m <;> simp [hp, hm, hl, ih]
      · by_cases hb : b = []
        · simp [hb]
        · cases hp : app.parse b with
          | error e => simp [hp, hb]
          | ok entry =>
            cases hl : l.Log entry.Time (app.stripped entry.Message) <;> simp [hp, hl, hb]
    · by_cases hb : b = []
      · simp [hb]
      · cases hp : app.parse b with
        | error e => simp [hp, hb]
        | ok entry =>
          cases hl : l.Log entry.Time (app.stripped entry.Message) <;> simp [hp, hl, hb]
    · rfl

theorem splitDelim_some (d : Byte) : ∀ (s l rest : List Byte),
    splitDelim d s = some (l, rest) → ∃ c, l = c ++ [d] ∧ d ∉ c ∧ s = l ++ rest
  | [], _, _, h => by simp [splitDelim] at h
  | a :: s, l, rest, h => by
    by_cases ha : a = d
    · simp only [splitDelim, ha, if_true, Option.some.injEq, Prod.mk.injEq] at h
      exact ⟨[], by simp [← h.1], by simp, by simp [ha, ← h.1, ← h.2]⟩
    · cases hs : splitDelim d s with
      | none => simp [splitDelim, ha, hs] at h
      | some p =>
        obtain ⟨l', rest'⟩ := p
        simp only [splitDelim, ha, hs, if_false, Option.some.injEq, Prod.mk.injEq] at h
        obtain ⟨c, hc1, hc2, hc3⟩ := splitDelim_some d s l' rest' hs
        refine ⟨a :: c, by simp [← h.1, hc1], ?_, by simp [← h.1, ← h.2, hc3]⟩
        intro hm
        rcases List.mem_cons.mp hm with e | e
        · exact ha e.symm
        · exact hc2 e

theorem splitDelim_eq_none (d : Byte) : ∀ (s : List Byte), splitDelim d s = none → d ∉ s
  | [], _ => by simp
  | a :: s, h => by
    by_cases ha : a = d
    · simp [splitDelim, ha] at h
    · cases hs : splitDelim d s with
      | some p => simp [splitDelim, ha, hs] at h
      | none =>
        intro hm
        rcases List.mem_cons.mp hm with e | e
        · exact ha e.symm
        · exact splitDelim_eq_none d s hs e

theorem mem_dropLast_cons {x b : List Byte} : ∀ {bs : List (List Byte)},
    x ∈ (b :: bs).dropLast → x = b ∨ x ∈ bs.dropLast
  | [], h => by simp at h
  | _ :: _, h => by
    simp only [List.dropLast_cons₂, List.mem_cons] at h
    exact h

/-- The buffers of a run of the loop that ends without error: they make up the
rest of the body, none is empty, a line-feed is at most the last byte of a
buffer, and every buffer but the last ends with one. -/
theorem processLoopBuffers_framing (app : App) : ∀ (n : Nat) (buf : Reader) (l : logger),
    (app.processLoopBuffers n false buf l).1.1 = .nil →
    (app.processLoopBuffers n false buf l).2.flatten = buf.data ∧
    (∀ b ∈ (app.processLoopBuffers n false buf l).2, b ≠ [] ∧ LF ∉ b.dropLast) ∧
    (∀ b ∈ (app.processLoopBuffers n false buf l).2.dropLast, b.getLast? = some LF)
  | 0, _, _, h => by simp [App.processLoopBuffers] at h
  | n + 1, buf, l, h => by
    rw [App.processLoopBuffers] at h ⊢
    cases hs : splitDelim LF buf.data with
    | none =>
      have hno := splitDelim_eq_none LF buf.data hs
      cases hf : buf.fail with
      | some msg => simp [Reader.ReadBytes, hs, hf] at h
      | none =>
        by_cases hd : buf.data = []
        · simp [Reader.ReadBytes, hf, hd, splitDelim]
        · cases hp : app.parse buf.data with
          | error e => simp [Reader.ReadBytes, hs, hf, hd, hp] at h
          | ok entry =>
            cases hl : l.Log entry.Time (app.stripped entry.Message) with
            | none => simp [Reader.ReadBytes, hs, hf, hd, hp, hl] at h
            | some l' =>
              simp only [Reader.ReadBytes, hs, hf, hd, hp, hl, if_true, Bool.true_and,
                beq_iff_eq, List.length_eq_zero, if_false, Bool.not_true, Bool.false_eq_true,
                List.flatten_cons, List.flatten_nil, List.append_nil, List.mem_singleton,
                forall_eq, List.dropLast_single, List.not_mem_nil, false_implies, implies_true,
                and_true, true_and, ne_eq, not_false_eq_true]
              exact fun hm => hno (List.dropLast_subset _ hm)
    | some p =>
      obtain ⟨line, rest⟩ := p
      obtain ⟨c, hc1, hc2, hc3⟩ := splitDelim_some LF buf.data line rest hs
      have hline : line ≠ [] := by simp [hc1]
      cases hp : app.parse line with
      | error e => simp [Reader.ReadBytes, hs, hp, hline] at h
      | ok entry =>
        cases hm : sliceLast (app.stripped entry.Message) with
        | none => simp [Reader.ReadBytes, hs, hp, hm, hline] at h
        | some m =>
          cases hl : l.Log entry.Time m with
          | none => simp [Reader.ReadBytes, hs, hp, hm, hl, hline] at h
          | some l' =>
            simp only [Reader.ReadBytes, hs, hp, hm, hl, reduceCtorEq, if_false,
              Bool.false_and, Bool.false_eq_true, Bool.not_false, if_true] at h ⊢
            obtain ⟨h1, h2, h3⟩ := processLoopBuffers_framing app n ⟨rest, buf.fail⟩ l' h
            refine ⟨?_, ?_, ?_⟩
            · simp only [List.flatten_cons, h1, hc3]
            · intro b hb
              rcases List.mem_cons.mp hb with rfl | hb
              · exact ⟨hline, by simpa [hc1] using hc2⟩
              · exact h2 b hb
            · intro b hb
              rcases mem_dropLast_cons hb with rfl | hb
              · simp [hc1]
              · exact h3 b hb

/-- C14: when `processMessages` completes without error, the raw buffers handed
to the parse function, concatenated in order, are the body; no buffer is empty,
a line-feed occurs in a buffer at most as its last byte, and every buffer
except possibly the last ends with a line-feed. -/
theorem parsedBuffers_frame_body (app : App) (r : Reader) (l : logger)
    (h : (app.processMessages r l).1 = .nil) :
    (app.parsedBuffers r l).flatten = r.data ∧
    (∀ b ∈ app.parsedBuffers r l, b ≠ [] ∧ LF ∉ b.dropLast) ∧
    (∀ b ∈ (app.parsedBuffers r l).dropLast, b.getLast? = some LF) := by
  unfold App.parsedBuffers
  apply processLoopBuffers_framing
  rw [processLoopBuffers_fst]
  exact h

/-- C14, at a concrete input: the body `"a\nb"`, framed as `"a\n"` and `"b"`. -/
theorem parsedBuffers_frame_body_witness :
    ((App.new 0 false [] [] parseWhole).processMessages ⟨[97, 10, 98], none⟩ (.mem [])).1 = .nil ∧
    (App.new 0 false [] [] parseWhole).parsedBuffers ⟨[97, 10, 98], none⟩ (.mem []) =
      [[97, 10], [98]] ∧
    (((App.new 0 false [] [] parseWhole).parsedBuffers ⟨[97, 10, 98], none⟩ (.mem [])).flatten =
        (⟨[97, 10, 98], none⟩ : Reader).data ∧
      (∀ b ∈ (App.new 0 false [] [] parseWhole).parsedBuffers ⟨[97, 10, 98], none⟩ (.mem []),
        b ≠ [] ∧ LF ∉ b.dropLast) ∧
      (∀ b ∈ ((App.new 0 false [] [] parseWhole).parsedBuffers
          ⟨[97, 10, 98], none⟩ (.mem [])).dropLast, b.getLast? = some LF)) :=
  ⟨by decide, by decide,
   parsedBuffers_frame_body (App.new 0 false [] [] parseWhole) ⟨[97, 10, 98], none⟩ (.mem [])
     (by decide)⟩

/-! ## C11, C17: `stripAnsi` on text and escape sequences -/

theorem stripAnsi_text_append : ∀ (t s : List Byte), ESC ∉ t →
    stripAnsi (t ++ s) = t ++ stripAnsi s
  | [], _, _ => rfl
  | c :: t, s, h => by
    have hc : ¬ c = ESC := fun e => h (by simp [e])
    have ht : ESC ∉ t := fun e => h (List.mem_cons_of_mem _ e)
    have hm : ansiMatch (c :: (t ++ s)) = none := by simp [ansiMatch, hc]
    rw [List.cons_append, stripAnsi_cons_keep hm, stripAnsi_text_append t s ht,
      List.cons_append]

theorem stripAnsi_sequence_append (mid s : List Byte) (h : LetterM ∉ mid) :
    stripAnsi (ESC :: mid ++ LetterM :: s) = stripAnsi s := by
  have hm : ansiMatch (ESC :: (mid ++ LetterM :: s)) = some s := by
    simp [ansiMatch, afterM_append mid s h]
  exact stripAnsi_cons_match hm

theorem stripAnsi_segments : ∀ (segs : List (List Byte × List Byte)),
    (∀ p ∈ segs, LetterM ∉ p.1 ∧ ESC ∉ p.2) →
    stripAnsi (segs.map (fun p => ESC :: p.1 ++ [LetterM] ++ p.2)).flatten =
      (segs.map Prod.snd).flatten
  | [], _ => rfl
  | p :: segs, h => by
    obtain ⟨h1, h2⟩ := h p (List.mem_cons_self _ _)
    have ih := stripAnsi_segments segs (fun q hq => h q (List.mem_cons_of_mem _ hq))
    have e : ((p :: segs).map (fun p => ESC :: p.1 ++ [LetterM] ++ p.2)).flatten =
        ESC :: p.1 ++ LetterM :: (p.2 ++
          (segs.map (fun p => ESC :: p.1 ++ [LetterM] ++ p.2)).flatten) := by
      simp
    rw [e, stripAnsi_sequence_append _ _ h1, stripAnsi_text_append _ _ h2, ih]
    simp

/-- C11: for texts `t0 .. tn` without escape byte and escape sequences
`e1 .. en` (the escape byte, bytes other than `m`, then `m`),
`stripAnsi (t0 e1 t1 .. en tn) = t0 t1 .. tn`; a string without escape byte is
returned as it is. -/
theorem stripAnsi_removes_sequences (t0 : List Byte) (segs : List (List Byte × List Byte))
    (h0 : ESC ∉ t0) (hsegs : ∀ p ∈ segs, LetterM ∉ p.1 ∧ ESC ∉ p.2) :
    stripAnsi (t0 ++ (segs.map (fun p => ESC :: p.1 ++ [LetterM] ++ p.2)).flatten) =
        t0 ++ (segs.map Prod.snd).flatten ∧
      stripAnsi t0 = t0 := by
  constructor
  · rw [stripAnsi_text_append _ _ h0, stripAnsi_segments segs hsegs]
  · have := stripAnsi_text_append t0 [] h0
    simpa [stripAnsi_nil] using this

/-- C11, at a concrete input: `"a\x1b[31mred\x1b[0m!"` becomes `"ared!"`. -/
theorem stripAnsi_removes_sequences_witness :
    ESC ∉ [97] ∧
    stripAnsi ([97] ++ ([([91, 51, 49], [114, 101, 100]), ([91, 48], [33])].map
        (fun p => ESC :: p.1 ++ [LetterM] ++ p.2)).flatten) =
      [97] ++ ([([91, 51, 49], [114, 101, 100]), ([91, 48], [33])].map Prod.snd).flatten ∧
    stripAnsi [97] = [97] :=
  ⟨by decide,
   stripAnsi_removes_sequences [97] [([91, 51, 49], [114, 101, 100]), ([91, 48], [33])]
     (by decide) (by decide)⟩

/-- C17: `stripAnsi (m ++ "\n") = stripAnsi m ++ "\n"` for every string `m`, so
the byte that `m[:len(m)-1]` removes from the stripped message of a terminated
line is the line-feed, and with stripping enabled the message forwarded for a
line whose parsed message is `m ++ "\n"` is `stripAnsi m`. -/
theorem stripAnsi_commutes_with_trim (m : List Byte) :
    stripAnsi (m ++ [LF]) = stripAnsi m ++ [LF] ∧
    sliceLast (stripAnsi (m ++ [LF])) = some (stripAnsi m) ∧
    (∀ (app : App) (c : List Byte) (t : Nat) (es : List (Nat × List Byte)),
      app.stripAnsiCodes = true → LF ∉ c → app.parse (c ++ [LF]) = .ok ⟨t, m ++ [LF]⟩ →
      app.processMessages ⟨c ++ [LF], none⟩ (.mem es) =
        (.nil, .mem (es ++ [(t, stripAnsi m)]))) := by
  have h1 : stripAnsi (m ++ [LF]) = stripAnsi m ++ [LF] := stripAnsi_snoc m LF (by decide)
  refine ⟨h1, ?_, ?_⟩
  · rw [h1]
    simp [sliceLast]
  · intro app c t es hs hc hp
    have h := processLoop_complete_lines app [c ++ [LF]] [(t, m)] es ((c ++ [LF]).length + 1)
      (by
        intro l hl
        rw [List.mem_singleton] at hl
        exact ⟨c, hl, hc⟩)
      (by simp [hp]) (by simp)
    simpa [App.processMessages, App.stripped, hs] using h

/-- C17, at a concrete input: the message `"\x1b[0mhi\n"` is forwarded as `"hi"`. -/
theorem stripAnsi_commutes_with_trim_witness :
    stripAnsi ([27, 91, 48, 109, 104, 105] ++ [LF]) = [104, 105] ++ [LF] ∧
    (App.new 0 true [] [] parseWhole).processMessages
        ⟨[27, 91, 48, 109, 104, 105] ++ [LF], none⟩ (.mem []) =
      (.nil, .mem ([] ++ [(7, stripAnsi [27, 91, 48, 109, 104, 105])])) :=
  ⟨(stripAnsi_commutes_with_trim [27, 91, 48, 109, 104, 105]).1,
   (stripAnsi_commutes_with_trim [27, 91, 48, 109, 104, 105]).2.2
     (App.new 0 true [] [] parseWhole) [27, 91, 48, 109, 104, 105] 7 [] rfl (by decide) rfl⟩

/-! ## C18: a name that is already in the registry -/

/-- C18: when the name is in the registry, whatever the stored value (a live
logger or the nil logger of a failed construction), `App.logger` returns the
stored value with a nil error and leaves the app, its registry included,
unchanged; and whenever `App.logger` returns a non-nil error, the name was not
in the registry and this call invoked `cwlogger.New`. -/
theorem logger_present (app : App) (name : List Byte) (outcome : Option String) (l : logger)
    (h : lookup name app.loggers = some l) :
    app.logger name outcome = ((l, none), app) ∧
    (∀ (app' : App) (name' : List Byte) (outcome' : Option String),
      (app'.logger name' outcome').1.2 ≠ none →
        lookup name' app'.loggers = none ∧
        (app'.logger name' outcome').2.newCalls = app'.newCalls ++ [name'] ∧
        (app'.logger name' outcome').1 = cwloggerNew outcome') := by
  refine ⟨logger_hit app name outcome l h, ?_⟩
  intro app' name' outcome' he
  cases hl : lookup name' app'.loggers with
  | some l' =>
    rw [logger_hit app' name' outcome' l' hl] at he
    exact absurd rfl he
  | none =>
    rw [logger_miss app' name' outcome' hl]
    exact ⟨rfl, rfl, rfl⟩

/-- C18, at a concrete input: the registry holds the nil logger under `a`. -/
theorem logger_present_witness :
    lookup [97] ({ App.new 0 false [] [] parseWhole with
        loggers := [([97], .nilPtr)], newCalls := [[97]] } : App).loggers = some .nilPtr ∧
    (({ App.new 0 false [] [] parseWhole with
        loggers := [([97], .nilPtr)], newCalls := [[97]] } : App).logger [97] (some "denied") =
      ((.nilPtr, none), { App.new 0 false [] [] parseWhole with
        loggers := [([97], .nilPtr)], newCalls := [[97]] }) ∧
    (∀ (app' : App) (name' : List Byte) (outcome' : Option String),
      (app'.logger name' outcome').1.2 ≠ none →
        lookup name' app'.loggers = none ∧
        (app'.logger name' outcome').2.newCalls = app'.newCalls ++ [name'] ∧
        (app'.logger name' outcome').1 = cwloggerNew outcome')) :=
  ⟨rfl, logger_present _ [97] (some "denied") .nilPtr rfl⟩

/-! ## C13, C15: the trim step -/

/-- C13, the code at failing inputs: a terminated line whose message is empty,
as parsed or after stripping, makes `processMessages` panic at `m[:len(m)-1]`;
it neither returns an error nor returns normally. -/
theorem processMessages_panics_on_empty_message :
    parseChomp [10] = .ok ⟨1, []⟩ ∧
    sliceLast [] = none ∧
    (App.new 0 false [] [] parseChomp).processMessages ⟨[104, 105, 10, 10], none⟩ (.mem []) =
      (.panicked, .mem [(3, [104])]) ∧
    parseChomp [27, 91, 48, 109, 10] = .ok ⟨5, [27, 91, 48, 109]⟩ ∧
    (App.new 0 true [] [] parseChomp).processMessages ⟨[27, 91, 48, 109, 10], none⟩ (.mem []) =
      (.panicked, .mem []) :=
  ⟨rfl, rfl, by decide, rfl, by decide⟩

/-- The loop only appends to a live logger. -/
theorem processLoop_appends (app : App) : ∀ (n : Nat) (eof : Bool) (buf : Reader)
    (es : List (Nat × List Byte)),
    ∃ more, (app.processLoop n eof buf (.mem es)).2 = .mem (es ++ more)
  | 0, _, _, es => ⟨[], by simp [App.processLoop]⟩
  | n + 1, eof, buf, es => by
    rw [App.processLoop]
    rcases buf.ReadBytes LF with ⟨b, err, buf'⟩
    rcases err with _ | _ | msg
    · cases eof
      · cases hp : app.parse b with
        | error e => exact ⟨[], by simp [hp]⟩
        | ok entry =>
          cases hm : sliceLast (app.stripped entry.Message) with
          | none => exact ⟨[], by simp [hp, hm]⟩
          | some m =>
            obtain ⟨more, hmore⟩ := processLoop_appends app n false buf' (es ++ [(entry.Time, m)])
            exact ⟨(entry.Time, m) :: more, by simp [hp, hm, logger.Log, hmore]⟩
      · by_cases hb : b = []
        · exact ⟨[], by simp [hb]⟩
        · cases hp : app.parse b with
          | error e => exact ⟨[], by simp [hp, hb]⟩
          | ok entry =>
            exact ⟨[(entry.Time, app.stripped entry.Message)], by simp [hp, hb, logger.Log]⟩
    · by_cases hb : b = []
      · exact ⟨[], by simp [hb]⟩
      · cases hp : app.parse b with
        | error e => exact ⟨[], by simp [hp, hb]⟩
        | ok entry =>
          exact ⟨[(entry.Time, app.stripped entry.Message)], by simp [hp, hb, logger.Log]⟩
    · exact ⟨[], by simp⟩

/-- What the trim step does on terminated lines whose parsed message is not
empty after the optional stripping, whatever follows them in the body: the
message logged is the (optionally ANSI-stripped) parsed message without its
last byte, whatever that byte is; when the parsed message ends in a line-feed,
the byte removed is that line-feed. -/
theorem processMessages_forwards_without_last_byte (app : App) (lines : List (List Byte))
    (ents : List LogEntry) (post : List Byte) (f : Option String)
    (es : List (Nat × List Byte))
    (hlines : ∀ l ∈ lines, ∃ c, l = c ++ [LF] ∧ LF ∉ c)
    (hparse : lines.map app.parse = ents.map Except.ok)
    (hmsg : ∀ x ∈ ents, app.stripped x.Message ≠ []) :
    (∃ more, (app.processMessages ⟨lines.flatten ++ post, f⟩ (.mem es)).2 =
      .mem (es ++ ents.map (fun x => (x.Time, (app.stripped x.Message).dropLast)) ++ more)) ∧
    (∀ x ∈ ents, ∀ (m : List Byte) (c : Byte), app.stripped x.Message = m ++ [c] →
      (app.stripped x.Message).dropLast = m) ∧
    (∀ x ∈ ents, ∀ m : List Byte, x.Message = m ++ [LF] →
      (app.stripped x.Message).dropLast = app.stripped m) := by
  refine ⟨?_, ?_, ?_⟩
  · have hlen := length_le_length_flatten lines (by
      intro l hl
      obtain ⟨c, rfl, _⟩ := hlines l hl
      simp)
    obtain ⟨k, hk⟩ : ∃ k, (lines.flatten ++ post).length + 1 = k + lines.length :=
      ⟨(lines.flatten ++ post).length + 1 - lines.length, by
        simp only [List.length_append]; omega⟩
    unfold App.processMessages
    simp only [hk]
    rw [processLoop_lines app lines ents post f es k hlines hparse hmsg]
    exact processLoop_appends app k false ⟨post, f⟩ _
  · intro x _ m c h
    rw [h, List.dropLast_concat]
  · intro x _ m h
    rw [h, stripped_snoc_LF, List.dropLast_concat]

/-- An instance of `processMessages_forwards_without_last_byte`: two lines whose
messages end in a line-feed, followed by an unterminated line. -/
theorem processMessages_forwards_without_last_byte_witness :
    (∃ more, ((App.new 0 true [] [] parseWhole).processMessages
        ⟨[[27, 91, 48, 109, 104, 105, 10], [10]].flatten ++ [98], none⟩ (.mem [])).2 =
      .mem ([] ++ [(⟨7, [27, 91, 48, 109, 104, 105, 10]⟩ : LogEntry), ⟨1, [10]⟩].map
        (fun x => (x.Time, ((App.new 0 true [] [] parseWhole).stripped x.Message).dropLast))
        ++ more)) ∧
    (∀ x ∈ [(⟨7, [27, 91, 48, 109, 104, 105, 10]⟩ : LogEntry), ⟨1, [10]⟩],
      ∀ (m : List Byte) (c : Byte),
      (App.new 0 true [] [] parseWhole).stripped x.Message = m ++ [c] →
      ((App.new 0 true [] [] parseWhole).stripped x.Message).dropLast = m) ∧
    (∀ x ∈ [(⟨7, [27, 91, 48, 109, 104, 105, 10]⟩ : LogEntry), ⟨1, [10]⟩],
      ∀ m : List Byte, x.Message = m ++ [LF] →
      ((App.new 0 true [] [] parseWhole).stripped x.Message).dropLast =
        (App.new 0 true [] [] parseWhole).stripped m) :=
  processMessages_forwards_without_last_byte (App.new 0 true [] [] parseWhole)
    [[27, 91, 48, 109, 104, 105, 10], [10]]
    [⟨7, [27, 91, 48, 109, 104, 105, 10]⟩, ⟨1, [10]⟩] [98] none []
    (by
      intro l hl
      simp only [List.mem_cons, List.mem_singleton, List.not_mem_nil, or_false] at hl
      rcases hl with rfl | rfl
      · exact ⟨[27, 91, 48, 109, 104, 105], rfl, by decide⟩
      · exact ⟨[], rfl, by decide⟩)
    (by rfl)
    (by decide)

/-- C15, the code at a failing input: for the line `"abc\n"` a parse function
returns the message `"abc"`, which does not end in a line-feed; the claim has it
forwarded unchanged, but `m[:len(m)-1]` is taken all the same and the sink
receives `"ab"`: the trim step has removed the byte `c`.  The same message on
the unterminated line `"abc"` is forwarded whole. -/
theorem processMessages_trims_other_byte :
    parseChomp [97, 98, 99, 10] = .ok ⟨4, [97, 98, 99]⟩ ∧
    (App.new 0 false [] [] parseChomp).processMessages ⟨[97, 98, 99, 10], none⟩ (.mem []) =
      (.nil, .mem [(4, [97, 98])]) ∧
    (App.new 0 false [] [] parseChomp).processMessages ⟨[97, 98, 99, 10], none⟩ (.mem []) ≠
      (.nil, .mem [(4, [97, 98, 99])]) ∧
    parseChomp [97, 98, 99] = .ok ⟨3, [97, 98, 99]⟩ ∧
    (App.new 0 false [] [] parseChomp).processMessages ⟨[97, 98, 99], none⟩ (.mem []) =
      (.nil, .mem [(3, [97, 98, 99])]) :=
  ⟨rfl, by decide, by decide, rfl, by decide⟩

/-! ## C16: the registry key of a request -/

/-- What `App.logger` does to the registry: the name is a key afterwards, added
at the end when it was not one, and the other keys keep their values. -/
theorem logger_registry (app : App) (d : List Byte) (outcome : Option String) :
    (app.logger d outcome).2.loggers.map Prod.fst =
        (if lookup d app.loggers = none then app.loggers.map Prod.fst ++ [d]
          else app.loggers.map Prod.fst) ∧
    (app.logger d outcome).2.newCalls =
        (if lookup d app.loggers = none then app.newCalls ++ [d] else app.newCalls) ∧
    d ∈ (app.logger d outcome).2.loggers.map Prod.fst ∧
    (∀ k, k ≠ d → lookup k (app.logger d outcome).2.loggers = lookup k app.loggers) := by
  cases hl : lookup d app.loggers with
  | some l =>
    rw [logger_hit app d outcome l hl]
    refine ⟨by simp, by simp, ?_, fun _ _ => rfl⟩
    by_contra hc
    rw [(lookup_eq_none d app.loggers).mpr hc] at hl
    cases hl
  | none =>
    have hnot := (lookup_eq_none d app.loggers).mp hl
    rw [logger_miss app d outcome hl]
    refine ⟨by simp [store_keys_of_not_mem _ _ _ hnot], by simp, ?_, ?_⟩
    · simp [store_keys_of_not_mem _ _ _ hnot]
    · intro k hk
      exact lookup_store_other k d _ _ hk

/-- The app after an authorized POST: the one `App.logger` leaves, up to the
state of the logger stored under the destination. -/
theorem ServeHTTP_authorized_state (app : App) (r : Request) (outcome : Option String)
    (d : List Byte) (hm : r.Method = "POST") (hp : r.Path = Slash :: d) (hd : d ≠ [])
    (hu : r.BasicAuth.1 = app.user) (hpw : r.BasicAuth.2.1 = app.pass) :
    (app.ServeHTTP r outcome).2 = (app.logger d outcome).2 ∨
    ∃ l, (app.ServeHTTP r outcome).2 =
      { (app.logger d outcome).2 with
        loggers := store d l (app.logger d outcome).2.loggers } := by
  simp only [App.ServeHTTP, hp, hm]
  simp only [hd, hu, hpw, ne_eq, not_true_eq_false, or_self, if_false, reduceCtorEq,
    String.reduceEq]
  rcases app.logger d outcome with ⟨⟨l, err⟩, app1⟩
  cases err with
  | some e => exact Or.inl rfl
  | none =>
    simp only
    rcases app1.processMessages r.Body l with ⟨res, l'⟩
    cases res <;> exact Or.inr ⟨l', rfl⟩

/-- C16: for a POST request with matching credentials and the path `/` followed
by a non-empty `d`, the registry key that is looked up, and created on a miss,
is `d` itself: afterwards `d` is a key, it is the only key added and the only
name `cwlogger.New` was invoked with, and the entry of every other name, however
close to `d`, is what it was. -/
theorem ServeHTTP_registry_key (app : App) (r : Request) (outcome : Option String)
    (d : List Byte) (hm : r.Method = "POST") (hp : r.Path = Slash :: d) (hd : d ≠ [])
    (hu : r.BasicAuth.1 = app.user) (hpw : r.BasicAuth.2.1 = app.pass) :
    (app.ServeHTTP r outcome).2.loggers.map Prod.fst =
        (if lookup d app.loggers = none then app.loggers.map Prod.fst ++ [d]
          else app.loggers.map Prod.fst) ∧
    (app.ServeHTTP r outcome).2.newCalls =
        (if lookup d app.loggers = none then app.newCalls ++ [d] else app.newCalls) ∧
    lookup d (app.ServeHTTP r outcome).2.loggers ≠ none ∧
    (∀ k, k ≠ d → lookup k (app.ServeHTTP r outcome).2.loggers = lookup k app.loggers) := by
  obtain ⟨h1, h2, h3, h4⟩ := logger_registry app d outcome
  rcases ServeHTTP_authorized_state app r outcome d hm hp hd hu hpw with h | ⟨l, h⟩
  · rw [h]
    refine ⟨h1, h2, ?_, h4⟩
    intro hc
    exact (lookup_eq_none d _).mp hc h3
  · rw [h]
    refine ⟨?_, h2, ?_, ?_⟩
    · simp only
      rw [store_keys d l _ h3, h1]
    · simp [lookup_store_self]
    · intro k hk
      simp only
      rw [lookup_store_other k d l _ hk, h4 k hk]

/-- C16, at a concrete input: the registry holds `a` and `a/b`; a POST to `/a/B`
adds the key `a/B` and leaves the entries of `a`, `a/b` and `a/B/` alone. -/
theorem ServeHTTP_registry_key_witness :
    (appTwoLoggers.ServeHTTP (postRequest [47, 97, 47, 66] none [104, 105, 10]) none).2.loggers =
      [([97], .mem []), ([97, 47, 98], .mem []), ([97, 47, 66], .mem [(3, [104, 105])])] ∧
    ((appTwoLoggers.ServeHTTP
          (postRequest [47, 97, 47, 66] none [104, 105, 10]) none).2.loggers.map Prod.fst =
        (if lookup [97, 47, 66] appTwoLoggers.loggers = none
          then appTwoLoggers.loggers.map Prod.fst ++ [[97, 47, 66]]
          else appTwoLoggers.loggers.map Prod.fst) ∧
      (appTwoLoggers.ServeHTTP
          (postRequest [47, 97, 47, 66] none [104, 105, 10]) none).2.newCalls =
        (if lookup [97, 47, 66] appTwoLoggers.loggers = none
          then appTwoLoggers.newCalls ++ [[97, 47, 66]]
          else appTwoLoggers.newCalls) ∧
      lookup [97, 47, 66] (appTwoLoggers.ServeHTTP
          (postRequest [47, 97, 47, 66] none [104, 105, 10]) none).2.loggers ≠ none ∧
      (∀ k, k ≠ [97, 47, 66] →
        lookup k (appTwoLoggers.ServeHTTP
          (postRequest [47, 97, 47, 66] none [104, 105, 10]) none).2.loggers =
        lookup k appTwoLoggers.loggers)) :=
  ⟨by decide,
   ServeHTTP_registry_key appTwoLoggers (postRequest [47, 97, 47, 66] none [104, 105, 10]) none
     [97, 47, 66] rfl rfl (by decide) rfl rfl⟩

end Drain
